import Mathlib

/-!
Txn-Parser: the block-polling engine, its repository and its public operations

A shallow embedding of `repository/repository.go`, `service/service.go` and the
subscribe handler of `http/http.go`.

* The repository struct is a record; every method takes the record and returns the
  new record next to the Go return value.
* Go maps are association lists with one entry per key (`GoMap`).
* Go `int` is the 64-bit two's-complement integer (`GoInt`), `uint` its unsigned
  sibling (`GoUint`); arithmetic wraps as in Go.
* `strings.ToLower` lower-cases every rune; what `unicode.ToLower` does to an ASCII rune
  is written out, and the lower-case table of the Unicode data, which it consults for
  every other rune, is a parameter (`table`) of each definition that lower-cases.
* The remote node is an input: each RPC call receives an `RpcReply`.
* A runtime panic and a loop that does not finish are outcomes of `Exec`.
* Goroutines started by a tick are recorded as `Effect.spawn`; each one is a later
  call of `processBlock`, in any order.
-/

namespace TxnParser

/-! ## Go values -/

/-- Outcome of running a piece of Go code: a normal return, a runtime panic (which,
unrecovered, ends the process), or a loop that has not finished within the fuel given. -/
inductive Exec (α : Type) where
  | ret (a : α)
  | panic
  | outOfFuel
deriving DecidableEq

deriving instance DecidableEq for Except

/-- Go `int` on a 64-bit platform. -/
abbrev GoInt : Type :=
  { x : Int // -9223372036854775808 ≤ x ∧ x ≤ 9223372036854775807 }

/-- Go `uint` on a 64-bit platform. -/
abbrev GoUint : Type := { n : Nat // n < 18446744073709551616 }

/-- Two's-complement reduction of a mathematical integer to 64 bits. -/
def wrapInt (x : Int) : Int :=
  (x + 9223372036854775808) % 18446744073709551616 - 9223372036854775808

/-- Conversion to `int` (and the result of every `int` operation): wraps. -/
def GoInt.ofInt (x : Int) : GoInt :=
  ⟨wrapInt x, by unfold wrapInt; omega⟩

/-- Go `a + b` on `int`. -/
def GoInt.add (a b : GoInt) : GoInt := GoInt.ofInt (a.val + b.val)

/-- Go `a - b` on `int`. -/
def GoInt.sub (a b : GoInt) : GoInt := GoInt.ofInt (a.val - b.val)

/-- Go `-a` on `int`. -/
def GoInt.neg (a : GoInt) : GoInt := GoInt.ofInt (-a.val)

/-- Go `uint(a)` for `a : int`. -/
def GoInt.toUint (a : GoInt) : GoUint :=
  ⟨(a.val % 18446744073709551616).toNat, by omega⟩

/-- Go `int(n)` for `n : uint`. -/
def GoUint.toInt (n : GoUint) : GoInt := GoInt.ofInt (n.val : Int)

/-- Largest `int`. -/
def maxInt : Int := 9223372036854775807

/-- A Go `map[string]V`: an association list holding each key once. -/
abbrev GoMap (V : Type) : Type := List (String × V)

/-- Lookup `v, ok := m[k]`. -/
def GoMap.get {V : Type} : GoMap V → String → Option V
  | [], _ => none
  | (k1, v) :: rest, k => if k1 = k then some v else GoMap.get rest k

/-- The expression `m[k]`: the stored value, or the zero value of `V`. -/
def GoMap.index {V : Type} (m : GoMap V) (k : String) (zero : V) : V :=
  (m.get k).getD zero

/-- The assignment `m[k] = v`. -/
def GoMap.set {V : Type} : GoMap V → String → V → GoMap V
  | [], k, v => [(k, v)]
  | (k1, v1) :: rest, k, v =>
    if k1 = k then (k, v) :: rest else (k1, v1) :: GoMap.set rest k v

/-- The keys of a map. -/
def GoMap.keys {V : Type} (m : GoMap V) : List String := m.map Prod.fst

/-- The function `unicode.ToLower`. A rune up to `MaxASCII` is handled in the function
itself: `A`..`Z` move to `a`..`z`, every other ASCII rune is kept. Any other rune is
looked up in the lower-case table of the Unicode data, which is not part of the program
text; that table is the parameter `table`. -/
def toLowerRune (table : Char → Char) (c : Char) : Char :=
  if c.toNat ≤ 127 then
    (if 65 ≤ c.toNat ∧ c.toNat ≤ 90 then Char.ofNat (c.toNat + 32) else c)
  else table c

/-- The call `strings.ToLower(s)`: every rune goes through `unicode.ToLower` (the
shortcut the function takes for an all-ASCII string gives the same result). Strings are
valid UTF-8 text. -/
def ToLower (table : Char → Char) (s : String) : String :=
  String.mk (s.data.map (toLowerRune table))

/-- The bytes of a Go string (its UTF-8 encoding). -/
def goBytes (s : String) : List Nat :=
  s.data.flatMap fun c => (String.utf8EncodeChar c).map UInt8.toNat

/-! ## model/model.go -/

/-- Transaction of `model.go`. -/
structure Transaction where
  Hash : String
  From : String
  To : String
  Value : String
  BlockNumber : String
deriving DecidableEq

/-- Block of `model.go`. -/
structure Block where
  Number : String
  Hash : String
  Transactions : List Transaction
deriving DecidableEq

/-! ## repository/repository.go -/

/-- The struct `inMemoryParserRepository` (the mutex is not part of the value). -/
structure inMemoryParserRepository where
  currentBlock : GoInt
  addresses : GoMap Bool
  transactions : GoMap (List Transaction)
deriving DecidableEq

/-- Constructor `NewInMemoryParserRepository`: zero cursor, two empty maps. -/
def NewInMemoryParserRepository : inMemoryParserRepository :=
  { currentBlock := GoInt.ofInt 0, addresses := [], transactions := [] }

namespace inMemoryParserRepository

/-- Method `GetCurrentBlockNumber`. -/
def GetCurrentBlockNumber (r : inMemoryParserRepository) : GoInt := r.currentBlock

/-- Method `SetCurrentBlockNumber`: `r.currentBlock = int(num)`; returns true. -/
def SetCurrentBlockNumber (r : inMemoryParserRepository) (num : GoUint) :
    inMemoryParserRepository × Bool :=
  ({ r with currentBlock := num.toInt }, true)

/-- Method `AddAddress`: `r.addresses[address] = true`; returns true. -/
def AddAddress (r : inMemoryParserRepository) (address : String) :
    inMemoryParserRepository × Bool :=
  ({ r with addresses := r.addresses.set address true }, true)

/-- Method `GetAddress`: `r.addresses[address]`. -/
def GetAddress (r : inMemoryParserRepository) (address : String) : Bool :=
  r.addresses.index address false

/-- Method `GetAddressCount`: `len(r.addresses)`. -/
def GetAddressCount (r : inMemoryParserRepository) : Nat := r.addresses.length

/-- Method `GetTransactions`: the stored slice when the key exists, else an empty one. -/
def GetTransactions (r : inMemoryParserRepository) (address : String) : List Transaction :=
  match r.transactions.get address with
  | some transactions => transactions
  | none => []

/-- One pass of the loop of `AddTransactions`:
`r.transactions[k] = append(r.transactions[k], v...)`. -/
def appendEntry (store : GoMap (List Transaction)) (kv : String × List Transaction) :
    GoMap (List Transaction) :=
  store.set kv.1 (store.index kv.1 [] ++ kv.2)

/-- Method `AddTransactions`: ranges over `txns` (every key once, so the order of the
range does not show in any lookup) and appends; returns true. -/
def AddTransactions (r : inMemoryParserRepository) (txns : GoMap (List Transaction)) :
    inMemoryParserRepository × Bool :=
  ({ r with transactions := txns.foldl appendEntry r.transactions }, true)

end inMemoryParserRepository

/-! ## service/service.go

The service struct holds nothing but the repository, so its methods are functions
of the repository value. -/

namespace ethereumParserService

/-- Method `GetCurrentBlock`. -/
def GetCurrentBlock (r : inMemoryParserRepository) : GoInt := r.GetCurrentBlockNumber

/-- Method `Subscribe`: lower-case, refuse when `GetAddress` holds, else `AddAddress`. -/
def Subscribe (table : Char → Char) (r : inMemoryParserRepository) (address : String) :
    inMemoryParserRepository × Bool :=
  let lowerCaseAddress := ToLower table address
  if r.GetAddress lowerCaseAddress then (r, false)
  else r.AddAddress lowerCaseAddress

/-- Method `GetTransactions` of the service. -/
def GetTransactions (table : Char → Char)
    (r : inMemoryParserRepository) (address : String) : List Transaction :=
  let lowerCaseAddress := ToLower table address
  inMemoryParserRepository.GetTransactions r lowerCaseAddress

end ethereumParserService

/-! ## The node and `strconv` -/

/-- What one JSON-RPC call to the node yields, in the order the code inspects it:
`http.Post` fails, the status is 429, the body does not decode, or the body decodes
and its `result` field is `result` (the zero value when the field is absent). -/
inductive RpcReply (α : Type) where
  | transportError
  | status429
  | undecodable
  | decoded (result : α)
deriving DecidableEq

/-- The two errors of `strconv`. -/
inductive NumError where
  | invalid
  | range
deriving DecidableEq

/-- The helper `lower` of `strconv`: `c | ('x' - 'X')`. -/
def lowerByte (c : Nat) : Nat := c ||| 32

/-- The digit loop of `strconv.ParseUint(s, 16, 64)`; `n` is the value so far. The
result is the pair of Go return values. -/
def ParseUintLoop : List Nat → Nat → Nat × Option NumError
  | [], n => (n, none)
  | c :: rest, n =>
    let digit : Option Nat :=
      if 48 ≤ c ∧ c ≤ 57 then some (c - 48)
      else if 97 ≤ lowerByte c ∧ lowerByte c ≤ 122 then some (lowerByte c - 97 + 10)
      else none
    match digit with
    | none => (0, some NumError.invalid)
    | some d =>
      if d ≥ 16 then (0, some NumError.invalid)
      else if n ≥ 18446744073709551615 / 16 + 1 then
        (18446744073709551615, some NumError.range)
      else
        let n16 := (n * 16) % 18446744073709551616
        let n1 := (n16 + d) % 18446744073709551616
        if n1 < n16 ∨ n1 > 18446744073709551615 then
          (18446744073709551615, some NumError.range)
        else ParseUintLoop rest n1

/-- The call `strconv.ParseUint(s, 16, 64)` on the bytes of `s`. -/
def ParseUint (s : List Nat) : Nat × Option NumError :=
  match s with
  | [] => (0, some NumError.invalid)
  | _ => ParseUintLoop s 0

/-- The call `strconv.ParseInt(s, 16, 64)` on the bytes of `s`: an optional sign, then
`ParseUint`, then the range check against `1 << 63`. -/
def ParseInt (s : List Nat) : Except NumError GoInt :=
  match s with
  | [] => Except.error NumError.invalid
  | c :: rest =>
    let neg : Bool := c = 45
    let digits := if c = 43 ∨ c = 45 then rest else s
    match ParseUint digits with
    | (_, some NumError.invalid) => Except.error NumError.invalid
    | (un, _) =>
      if !neg ∧ un ≥ 9223372036854775808 then Except.error NumError.range
      else if neg ∧ un > 9223372036854775808 then Except.error NumError.range
      else
        let n := GoInt.ofInt (un : Int)
        Except.ok (if neg then n.neg else n)

/-- What an iteration of the scheduling loop does besides changing the repository: a
printed line (its fixed text; the numbers formatted into it are left out), a goroutine
started for `processBlock(blockNumber)`, or `time.Sleep` for a number of seconds. -/
inductive Effect where
  | print (msg : String)
  | spawn (blockNumber : GoInt)
  | sleep (seconds : Nat)
deriving DecidableEq

/-! ## service/service.go: the engine -/

namespace ethereumParserService

/-- Method `fetchBlockNumber`, as a function of the node's reply (marshalling the fixed
payload cannot fail). The error values carry the fixed part of the message. The slice
expression `result.Result[2:]` panics when the string has fewer than two bytes. -/
def fetchBlockNumber (reply : RpcReply String) : Exec (Except String GoInt) :=
  match reply with
  | RpcReply.transportError => Exec.ret (Except.error "error sending request")
  | RpcReply.status429 => Exec.ret (Except.error "rate limit exceeded")
  | RpcReply.undecodable => Exec.ret (Except.error "error decoding response")
  | RpcReply.decoded result =>
    let bytes := goBytes result
    if bytes.length < 2 then Exec.panic
    else
      match ParseInt (bytes.drop 2) with
      | Except.error _ => Exec.ret (Except.error "error parsing block number")
      | Except.ok blockNumber => Exec.ret (Except.ok blockNumber)

/-- Method `fetchBlock`, as a function of the node's reply; a null `result` is the
error `block not found`. -/
def fetchBlock (reply : RpcReply (Option Block)) : Except String Block :=
  match reply with
  | RpcReply.transportError => Except.error "error sending request"
  | RpcReply.status429 => Except.error "rate limit exceeded"
  | RpcReply.undecodable => Except.error "error decoding response"
  | RpcReply.decoded none => Except.error "block not found"
  | RpcReply.decoded (some block) => Except.ok block

/-- The collating loop of `processBlock` over the block's transactions; `txns` is the
local map. -/
def collate (table : Char → Char) (r : inMemoryParserRepository) :
    List Transaction → GoMap (List Transaction) → GoMap (List Transaction)
  | [], txns => txns
  | txn :: rest, txns =>
    let sender := ToLower table txn.From
    let receiver := ToLower table txn.To
    let txns1 :=
      if r.GetAddress sender then txns.set sender (txns.index sender [] ++ [txn]) else txns
    let txns2 :=
      if sender ≠ receiver ∧ r.GetAddress receiver then
        txns1.set receiver (txns1.index receiver [] ++ [txn])
      else txns1
    collate table r rest txns2

/-- Method `processBlock`, as a function of the node's reply for that block: on a fetch
error the error is printed and the repository stays as it is; otherwise the matches are
collated and saved. -/
def processBlock (table : Char → Char)
    (r : inMemoryParserRepository) (reply : RpcReply (Option Block)) :
    inMemoryParserRepository :=
  match fetchBlock reply with
  | Except.error _ => r
  | Except.ok block => (r.AddTransactions (collate table r block.Transactions [])).1

/-- The loop `for i := startBlock + 1; i <= currentBlock; i++ { go ... }`, from the
current value of `i`: the block numbers handed to goroutines, in order; `none` when the
loop has not ended within `fuel` passes. -/
def dispatchLoop : Nat → GoInt → GoInt → Option (List GoInt)
  | 0, _, _ => none
  | fuel + 1, i, currentBlock =>
    if i.val ≤ currentBlock.val then
      (dispatchLoop fuel (i.add (GoInt.ofInt 1)) currentBlock).map (List.cons i)
    else some []

/-- The start of the scan: the cursor, or `currentBlock - 5` when the cursor is 0. -/
def startBlockOf (r : inMemoryParserRepository) (currentBlock : GoInt) : GoInt :=
  let startBlock := r.GetCurrentBlockNumber
  if startBlock.val = 0 then currentBlock.sub (GoInt.ofInt 5) else startBlock

/-- The `default:` branch of the `select` in `StartParsing`: one polling tick.
`intervalInSecond` is the value after the zero check at the top of the method. -/
def tick (fuel : Nat) (intervalInSecond : Nat) (r : inMemoryParserRepository)
    (head : RpcReply String) : Exec (inMemoryParserRepository × List Effect) :=
  if r.GetAddressCount = 0 then
    -- continue
    Exec.ret (r, [])
  else
    match fetchBlockNumber head with
    | Exec.panic => Exec.panic
    | Exec.outOfFuel => Exec.outOfFuel
    | Exec.ret (Except.error err) =>
      Exec.ret (r, [Effect.print ("Error fetching block number: " ++ err),
                    Effect.sleep intervalInSecond])
    | Exec.ret (Except.ok currentBlock) =>
      let startBlock := startBlockOf r currentBlock
      if currentBlock.val > startBlock.val then
        match dispatchLoop fuel (startBlock.add (GoInt.ofInt 1)) currentBlock with
        | none => Exec.outOfFuel
        | some blocks =>
          Exec.ret ((r.SetCurrentBlockNumber currentBlock.toUint).1,
            [Effect.print "processing blockNumber"] ++ blocks.map Effect.spawn ++
              [Effect.sleep intervalInSecond])
      else Exec.ret (r, [Effect.sleep intervalInSecond])

/-- One pass of the `for` loop of `StartParsing`: the `select` on `ctx.Done()`. The
Boolean says whether the loop goes on. -/
def loopPass (fuel : Nat) (intervalInSecond : Nat) (r : inMemoryParserRepository)
    (cancelled : Bool) (head : RpcReply String) :
    Exec (inMemoryParserRepository × List Effect × Bool) :=
  if cancelled then Exec.ret (r, [Effect.print "parser done"], false)
  else
    match tick fuel intervalInSecond r head with
    | Exec.ret (r1, effects) => Exec.ret (r1, effects, true)
    | Exec.panic => Exec.panic
    | Exec.outOfFuel => Exec.outOfFuel

/-- The interval `StartParsing` works with: 5 when called with 0. -/
def effectiveInterval (intervalInSecond : Nat) : Nat :=
  if intervalInSecond = 0 then 5 else intervalInSecond

end ethereumParserService

/-- The block numbers an effect list hands to goroutines. -/
def spawned : List Effect → List GoInt
  | [] => []
  | Effect.spawn b :: rest => b :: spawned rest
  | _ :: rest => spawned rest

/-- Whether an effect list reaches `time.Sleep`. -/
def sleeps (effects : List Effect) : Bool :=
  effects.any fun e => match e with
    | Effect.sleep _ => true
    | _ => false

/-! ## http/http.go -/

/-- The part of a request `handleSubscribe` looks at: the method, and the `address`
field of the decoded body (`none` when the body does not decode). -/
structure SubscribeRequest where
  Method : String
  Body : Option String

/-- Handler `handleSubscribe`: the new repository and the HTTP status written. -/
def parserHttp.handleSubscribe (table : Char → Char)
    (r : inMemoryParserRepository) (req : SubscribeRequest) :
    inMemoryParserRepository × Nat :=
  if req.Method ≠ "POST" then (r, 405)
  else
    match req.Body with
    | none => (r, 400)
    | some address =>
      if address = "" then (r, 400)
      else
        let res := ethereumParserService.Subscribe table r address
        if !res.2 then (res.1, 400) else (res.1, 200)

/-! ## Vocabulary of the specification -/

/-- The block numbers `start+1, start+2, ..., h`. -/
def scanRange (start h : Int) : List Int :=
  (List.range (h - start).toNat).map fun (k : Nat) => start + 1 + (k : Int)

/-- A transaction touches `A` when its lower-cased sender or lower-cased receiver is `A`. -/
def touches (table : Char → Char) (A : String) (txn : Transaction) : Bool :=
  decide (ToLower table txn.From = A) || decide (ToLower table txn.To = A)

/-- The transactions of a block that belong to `A`, in block order: those touching `A`
when `A` is subscribed, none otherwise. -/
def matchesOf (table : Char → Char) (r : inMemoryParserRepository) (A : String) (block : Block) :
    List Transaction :=
  if r.GetAddress A then block.Transactions.filter (touches table A) else []

/-- What one extraction task contributes to the sequence of `A`: the matches of the
block when the fetch succeeds, nothing when it fails. -/
def gained (table : Char → Char)
    (r : inMemoryParserRepository) (A : String) (reply : RpcReply (Option Block)) :
    List Transaction :=
  match ethereumParserService.fetchBlock reply with
  | Except.ok block => matchesOf table r A block
  | Except.error _ => []

/-- The goroutines of a tick running to completion one after the other in the order
`order`; `source` is the node's reply for each block number. -/
def runTasks (table : Char → Char)
    (r : inMemoryParserRepository) (source : GoInt → RpcReply (Option Block))
    (order : List GoInt) : inMemoryParserRepository :=
  order.foldl (fun s b => ethereumParserService.processBlock table s (source b)) r

/-- Two runes are one letter in possibly different case: they are equal, or one is the
lower-case form of the other. -/
def sameLetter (table : Char → Char) (a b : Char) : Bool :=
  decide (a = b) || decide (toLowerRune table a = b) || decide (toLowerRune table b = a)

/-- Rune sequences of equal length with the same letter at every position. -/
def sameLetters (table : Char → Char) : List Char → List Char → Bool
  | [], [] => true
  | a :: as, b :: bs => sameLetter table a b && sameLetters table as bs
  | _, _ => false

/-- Two strings differ only in letter case (or not at all). -/
def differOnlyInCase (table : Char → Char) (A B : String) : Bool :=
  sameLetters table A.data B.data

/-- No two keys of the list differ only in letter case. -/
def noCaseTwins (table : Char → Char) (keys : List String) : Prop :=
  ∀ k1 ∈ keys, ∀ k2 ∈ keys, differOnlyInCase table k1 k2 = true → k1 = k2

/-- What happens to the repository, one at a time: a caller subscribes, the scheduling
loop makes a polling tick, or a goroutine of an earlier tick runs `processBlock`. -/
inductive Event where
  | subscribe (address : String)
  | poll (head : RpcReply String)
  | task (reply : RpcReply (Option Block))

/-- One event. -/
def step (table : Char → Char) (fuel intervalInSecond : Nat) (r : inMemoryParserRepository) :
    Event → Exec (inMemoryParserRepository × List Effect)
  | Event.subscribe address => Exec.ret ((ethereumParserService.Subscribe table r address).1, [])
  | Event.poll head => ethereumParserService.tick fuel intervalInSecond r head
  | Event.task reply => Exec.ret (ethereumParserService.processBlock table r reply, [])

/-- A sequence of events: the repository and the effects after each of them. -/
def run (table : Char → Char) (fuel intervalInSecond : Nat) :
    inMemoryParserRepository → List Event →
      Exec (List (inMemoryParserRepository × List Effect))
  | _, [] => Exec.ret []
  | r, ev :: rest =>
    match step table fuel intervalInSecond r ev with
    | Exec.ret (r1, effects) =>
      (match run table fuel intervalInSecond r1 rest with
       | Exec.ret trace => Exec.ret ((r1, effects) :: trace)
       | Exec.panic => Exec.panic
       | Exec.outOfFuel => Exec.outOfFuel)
    | Exec.panic => Exec.panic
    | Exec.outOfFuel => Exec.outOfFuel

/-- The head number of a poll, when the fetch returns one. -/
def headOf (head : RpcReply String) : Option GoInt :=
  match ethereumParserService.fetchBlockNumber head with
  | Exec.ret (Except.ok h) => some h
  | _ => none

/-- The poll's head fetch does not panic and any head it returns is below the largest
`int`. -/
def Event.completes : Event → Bool
  | Event.poll head =>
    match ethereumParserService.fetchBlockNumber head with
    | Exec.ret (Except.ok h) => decide (h.val < maxInt)
    | Exec.ret (Except.error _) => true
    | _ => false
  | _ => true

/-- Any head number the poll returns is non-negative. -/
def Event.headNonNegative : Event → Bool
  | Event.poll head =>
    match headOf head with
    | some h => decide (0 ≤ h.val)
    | none => true
  | _ => true

/-! ## Sample values -/

/-- An excerpt of the Unicode lower-case table, for the examples: the capitals of the
Latin-1 block (U+00C0..U+00DE without the multiplication sign) move 32 places up, as
in `É` to `é`; every other rune is kept. -/
def latin1Capitals (c : Char) : Char :=
  if 192 ≤ c.toNat ∧ c.toNat ≤ 222 ∧ c.toNat ≠ 215 then Char.ofNat (c.toNat + 32) else c

/-- The repository after `Subscribe("0xAbC")` on a fresh one: the single key `0xabc`. -/
def oneSubscriber : inMemoryParserRepository :=
  { currentBlock := GoInt.ofInt 0, addresses := [("0xabc", true)], transactions := [] }

/-- A block holding one transaction sent by `0xABC`, tagged with the block number. -/
def sampleBlock (number : String) : Block :=
  { Number := number, Hash := "0xb1",
    Transactions := [{ Hash := "0xt1", From := "0xABC", To := "0xdef", Value := "0x1",
                       BlockNumber := number }] }

/-- The hexadecimal name of a block number, for the sample blocks. -/
def sampleNumber (b : GoInt) : String :=
  "0x" ++ String.mk (Nat.toDigits 16 b.val.toNat)

/-- A node that is rate-limited for block 97 and serves every other block. -/
def sampleSource (b : GoInt) : RpcReply (Option Block) :=
  if b.val = 97 then RpcReply.status429
  else RpcReply.decoded (some (sampleBlock (sampleNumber b)))

/-- A node that has no block below the genesis block. -/
def genesisSource (b : GoInt) : RpcReply (Option Block) :=
  if b.val < 0 then RpcReply.decoded none else RpcReply.decoded (some (sampleBlock "0x0"))

/-! ## Go maps -/

theorem GoMap.get_set_same {V : Type} (m : GoMap V) (k : String) (v : V) :
    (m.set k v).get k = some v := by
  induction m with
  | nil => simp [GoMap.set, GoMap.get]
  | cons kv rest ih =>
    obtain ⟨k1, v1⟩ := kv
    by_cases hk : k1 = k
    · simp [GoMap.set, GoMap.get, hk]
    · simp [GoMap.set, GoMap.get, hk, ih]

theorem GoMap.get_set_other {V : Type} (m : GoMap V) (k k2 : String) (v : V) (hne : k ≠ k2) :
    (m.set k v).get k2 = m.get k2 := by
  induction m with
  | nil => simp [GoMap.set, GoMap.get, hne]
  | cons kv rest ih =>
    obtain ⟨k1, v1⟩ := kv
    by_cases hk : k1 = k
    · subst hk
      simp [GoMap.set, GoMap.get, hne]
    · simp [GoMap.set, GoMap.get, hk, ih]

theorem GoMap.set_of_get {V : Type} (m : GoMap V) (k : String) (v : V)
    (hget : m.get k = some v) : m.set k v = m := by
  induction m with
  | nil => simp [GoMap.get] at hget
  | cons kv rest ih =>
    obtain ⟨k1, v1⟩ := kv
    by_cases hk : k1 = k
    · subst hk
      simp [GoMap.get] at hget
      simp [GoMap.set, hget]
    · simp [GoMap.get, hk] at hget
      simp [GoMap.set, hk, ih hget]

theorem GoMap.length_set_le {V : Type} (m : GoMap V) (k : String) (v : V) :
    (m.set k v).length ≤ m.length + 1 := by
  induction m with
  | nil => simp [GoMap.set]
  | cons kv rest ih =>
    obtain ⟨k1, v1⟩ := kv
    by_cases hk : k1 = k
    · simp [GoMap.set, hk]
    · simp [GoMap.set, hk]
      omega

theorem GoMap.length_le_set {V : Type} (m : GoMap V) (k : String) (v : V) :
    m.length ≤ (m.set k v).length := by
  induction m with
  | nil => simp [GoMap.set]
  | cons kv rest ih =>
    obtain ⟨k1, v1⟩ := kv
    by_cases hk : k1 = k
    · simp [GoMap.set, hk]
    · simp [GoMap.set, hk]
      omega

theorem GoMap.mem_keys_set {V : Type} (m : GoMap V) (k k2 : String) (v : V)
    (hmem : k2 ∈ (m.set k v).keys) : k2 = k ∨ k2 ∈ m.keys := by
  induction m with
  | nil =>
    simp [GoMap.set, GoMap.keys] at hmem
    exact Or.inl hmem
  | cons kv rest ih =>
    obtain ⟨k1, v1⟩ := kv
    by_cases hk : k1 = k
    · simp only [GoMap.set, hk, if_true, GoMap.keys, List.map_cons, List.mem_cons] at hmem
      rcases hmem with h | h
      · exact Or.inl h
      · right
        simp only [GoMap.keys, List.map_cons, List.mem_cons]
        exact Or.inr h
    · simp only [GoMap.set, hk, if_false, GoMap.keys, List.map_cons, List.mem_cons] at hmem
      rcases hmem with h | h
      · right
        simp [GoMap.keys, h]
      · rcases ih h with h2 | h2
        · exact Or.inl h2
        · right
          simp only [GoMap.keys, List.map_cons, List.mem_cons]
          exact Or.inr h2

/-! ## The registry -/

theorem GetAddress_AddAddress_same (r : inMemoryParserRepository) (a : String) :
    (r.AddAddress a).1.GetAddress a = true := by
  simp [inMemoryParserRepository.AddAddress, inMemoryParserRepository.GetAddress,
    GoMap.index, GoMap.get_set_same]

theorem AddAddress_of_GetAddress (r : inMemoryParserRepository) (a : String)
    (hpresent : r.GetAddress a = true) : (r.AddAddress a).1 = r := by
  have hget : r.addresses.get a = some true := by
    unfold inMemoryParserRepository.GetAddress GoMap.index at hpresent
    cases hg : r.addresses.get a with
    | none => simp [hg] at hpresent
    | some b =>
      simp [hg] at hpresent
      simp [hpresent]
  simp [inMemoryParserRepository.AddAddress, GoMap.set_of_get _ _ _ hget]

theorem Subscribe_of_present {table : Char → Char} (r : inMemoryParserRepository) (A : String)
    (hpresent : r.GetAddress (ToLower table A) = true) :
    ethereumParserService.Subscribe table r A = (r, false) := by
  simp [ethereumParserService.Subscribe, hpresent]

theorem Subscribe_of_absent {table : Char → Char} (r : inMemoryParserRepository) (A : String)
    (habsent : r.GetAddress (ToLower table A) = false) :
    ethereumParserService.Subscribe table r A = ((r.AddAddress (ToLower table A)).1, true) := by
  simp [ethereumParserService.Subscribe, habsent, inMemoryParserRepository.AddAddress]

theorem GetAddress_after_Subscribe {table : Char → Char}
    (r : inMemoryParserRepository) (A : String) :
    (ethereumParserService.Subscribe table r A).1.GetAddress (ToLower table A) = true := by
  cases hp : r.GetAddress (ToLower table A) with
  | true => rw [Subscribe_of_present r A hp]; exact hp
  | false => rw [Subscribe_of_absent r A hp]; exact GetAddress_AddAddress_same r _

theorem Subscribe_fresh_eq_oneSubscriber (table : Char → Char) :
    ethereumParserService.Subscribe table NewInMemoryParserRepository "0xAbC" =
      (oneSubscriber, true) := rfl

theorem count_Subscribe_le {table : Char → Char} (r : inMemoryParserRepository) (A : String) :
    (ethereumParserService.Subscribe table r A).1.GetAddressCount ≤ r.GetAddressCount + 1 := by
  cases hp : r.GetAddress (ToLower table A) with
  | true => rw [Subscribe_of_present r A hp]; exact Nat.le_succ _
  | false =>
    rw [Subscribe_of_absent r A hp]
    exact GoMap.length_set_le _ _ _

/-! ## The transaction store -/

theorem GoMap.index_set_same {V : Type} (m : GoMap V) (k : String) (v zero : V) :
    (m.set k v).index k zero = v := by
  simp [GoMap.index, GoMap.get_set_same]

theorem GoMap.index_set_other {V : Type} (m : GoMap V) (k k2 : String) (v zero : V)
    (hne : k ≠ k2) : (m.set k v).index k2 zero = m.index k2 zero := by
  simp [GoMap.index, GoMap.get_set_other _ _ _ _ hne]

theorem GoMap.get_of_not_mem_keys {V : Type} (m : GoMap V) (k : String)
    (hk : k ∉ m.keys) : m.get k = none := by
  induction m with
  | nil => rfl
  | cons kv rest ih =>
    obtain ⟨k1, v1⟩ := kv
    simp only [GoMap.keys, List.map_cons, List.mem_cons, not_or] at hk
    have hne : ¬ k1 = k := fun h => hk.1 h.symm
    simp only [GoMap.get, hne, if_false]
    exact ih hk.2

theorem GoMap.nodup_keys_set {V : Type} (m : GoMap V) (k : String) (v : V)
    (hm : m.keys.Nodup) : (m.set k v).keys.Nodup := by
  induction m with
  | nil => simp [GoMap.set, GoMap.keys]
  | cons kv rest ih =>
    obtain ⟨k1, v1⟩ := kv
    simp only [GoMap.keys, List.map_cons, List.nodup_cons] at hm
    by_cases hk : k1 = k
    · subst hk
      simp only [GoMap.set, if_true, GoMap.keys, List.map_cons, List.nodup_cons]
      exact hm
    · simp only [GoMap.set, hk, if_false, GoMap.keys, List.map_cons, List.nodup_cons]
      refine ⟨?_, ih hm.2⟩
      intro hmem
      rcases GoMap.mem_keys_set rest k k1 v hmem with h | h
      · exact hk h
      · exact hm.1 h

theorem GetTransactions_eq_index (r : inMemoryParserRepository) (A : String) :
    r.GetTransactions A = r.transactions.index A [] := by
  unfold inMemoryParserRepository.GetTransactions GoMap.index
  cases r.transactions.get A <;> rfl

theorem GoMap.index_nil {V : Type} (k : String) (zero : V) :
    GoMap.index ([] : GoMap V) k zero = zero := rfl

theorem GoMap.index_cons_same {V : Type} (rest : GoMap V) (k : String) (v zero : V) :
    GoMap.index ((k, v) :: rest) k zero = v := by
  simp [GoMap.index, GoMap.get]

theorem GoMap.index_cons_other {V : Type} (rest : GoMap V) (k k2 : String) (v zero : V)
    (hne : k ≠ k2) : GoMap.index ((k, v) :: rest) k2 zero = GoMap.index rest k2 zero := by
  simp [GoMap.index, GoMap.get, hne]

theorem GoMap.index_of_not_mem_keys {V : Type} (m : GoMap V) (k : String) (zero : V)
    (hk : k ∉ m.keys) : m.index k zero = zero := by
  simp [GoMap.index, GoMap.get_of_not_mem_keys m k hk]

theorem index_foldl_appendEntry (txns store : GoMap (List Transaction))
    (hnodup : txns.keys.Nodup) (A : String) :
    GoMap.index (txns.foldl inMemoryParserRepository.appendEntry store) A [] =
      store.index A [] ++ txns.index A [] := by
  induction txns generalizing store with
  | nil => simp [GoMap.index_nil]
  | cons kv rest ih =>
    obtain ⟨k, v⟩ := kv
    simp only [GoMap.keys, List.map_cons, List.nodup_cons] at hnodup
    rw [List.foldl_cons, ih _ hnodup.2]
    by_cases hk : k = A
    · subst hk
      rw [GoMap.index_of_not_mem_keys rest k [] hnodup.1, GoMap.index_cons_same]
      simp [inMemoryParserRepository.appendEntry, GoMap.index_set_same]
    · rw [GoMap.index_cons_other _ _ _ _ _ hk]
      simp [inMemoryParserRepository.appendEntry, GoMap.index_set_other _ _ _ _ _ hk]

theorem nodup_keys_collate {table : Char → Char}
    (r : inMemoryParserRepository) (txs : List Transaction)
    (txns : GoMap (List Transaction)) (hnodup : txns.keys.Nodup) :
    (ethereumParserService.collate table r txs txns).keys.Nodup := by
  induction txs generalizing txns with
  | nil => exact hnodup
  | cons txn rest ih =>
    simp only [ethereumParserService.collate]
    apply ih
    split_ifs <;> first
      | exact hnodup
      | exact GoMap.nodup_keys_set _ _ _ hnodup
      | exact GoMap.nodup_keys_set _ _ _ (GoMap.nodup_keys_set _ _ _ hnodup)

theorem index_guarded_append (m : GoMap (List Transaction)) (c : Prop) [Decidable c]
    (k A : String) (txn : Transaction) :
    GoMap.index (if c then m.set k (m.index k [] ++ [txn]) else m) A [] =
      m.index A [] ++ (if c ∧ k = A then [txn] else []) := by
  by_cases hc : c
  · by_cases hk : k = A
    · subst hk
      simp [hc, GoMap.index_set_same]
    · simp [hc, hk, GoMap.index_set_other _ _ _ _ _ hk]
  · simp [hc]

theorem both_appends (g : String → Bool) (s t A : String) (txn : Transaction) :
    (if g s = true ∧ s = A then [txn] else []) ++
        (if (s ≠ t ∧ g t = true) ∧ t = A then [txn] else []) =
      if g A = true ∧ (s = A ∨ t = A) then [txn] else [] := by
  by_cases hs : s = A
  · subst hs
    by_cases ht : t = s
    · subst ht
      cases g t <;> simp
    · have ht2 : ¬ s = t := fun h => ht h.symm
      cases g s <;> simp [ht, ht2]
  · by_cases ht : t = A
    · subst ht
      cases g t <;> simp [hs]
    · simp [hs, ht]

theorem index_collate {table : Char → Char} (r : inMemoryParserRepository)
    (txs : List Transaction)
    (txns : GoMap (List Transaction)) (A : String) :
    GoMap.index (ethereumParserService.collate table r txs txns) A [] =
      txns.index A [] ++ (if r.GetAddress A then txs.filter (touches table A) else []) := by
  induction txs generalizing txns with
  | nil => simp [ethereumParserService.collate]
  | cons txn rest ih =>
    simp only [ethereumParserService.collate]
    rw [ih, index_guarded_append, index_guarded_append, List.append_assoc, List.append_assoc,
      ← List.append_assoc _ _ (if r.GetAddress A = true then _ else _),
      both_appends r.GetAddress]
    congr 1
    by_cases hA : r.GetAddress A = true
    · by_cases hs : ToLower table txn.From = A
      · simp [hA, hs, touches, List.filter_cons]
      · by_cases ht : ToLower table txn.To = A
        · simp [hA, ht, touches, List.filter_cons]
        · simp [hA, hs, ht, touches, List.filter_cons]
    · simp [hA]

/-! ## One extraction task -/

theorem processBlock_addresses {table : Char → Char}
    (r : inMemoryParserRepository) (reply : RpcReply (Option Block)) :
    (ethereumParserService.processBlock table r reply).addresses = r.addresses := by
  unfold ethereumParserService.processBlock
  cases ethereumParserService.fetchBlock reply <;> rfl

theorem processBlock_currentBlock {table : Char → Char} (r : inMemoryParserRepository)
    (reply : RpcReply (Option Block)) :
    (ethereumParserService.processBlock table r reply).currentBlock = r.currentBlock := by
  unfold ethereumParserService.processBlock
  cases ethereumParserService.fetchBlock reply <;> rfl

theorem GetTransactions_processBlock {table : Char → Char} (r : inMemoryParserRepository)
    (reply : RpcReply (Option Block)) (A : String) :
    (ethereumParserService.processBlock table r reply).GetTransactions A =
      r.GetTransactions A ++ gained table r A reply := by
  unfold ethereumParserService.processBlock gained
  cases ethereumParserService.fetchBlock reply with
  | error e => simp
  | ok block =>
    simp only [GetTransactions_eq_index, inMemoryParserRepository.AddTransactions, matchesOf]
    rw [index_foldl_appendEntry _ _ (nodup_keys_collate r _ [] (by simp [GoMap.keys])),
      index_collate, GoMap.index_nil, List.nil_append]

theorem gained_congr {table : Char → Char}
    (r1 r2 : inMemoryParserRepository) (hreg : r1.addresses = r2.addresses)
    (A : String) (reply : RpcReply (Option Block)) :
    gained table r1 A reply = gained table r2 A reply := by
  simp [gained, matchesOf, inMemoryParserRepository.GetAddress, hreg]

theorem runTasks_addresses {table : Char → Char} (r : inMemoryParserRepository)
    (source : GoInt → RpcReply (Option Block)) (order : List GoInt) :
    (runTasks table r source order).addresses = r.addresses := by
  induction order generalizing r with
  | nil => rfl
  | cons b rest ih =>
    simp only [runTasks, List.foldl_cons] at ih ⊢
    rw [ih, processBlock_addresses]

theorem runTasks_currentBlock {table : Char → Char} (r : inMemoryParserRepository)
    (source : GoInt → RpcReply (Option Block)) (order : List GoInt) :
    (runTasks table r source order).currentBlock = r.currentBlock := by
  induction order generalizing r with
  | nil => rfl
  | cons b rest ih =>
    simp only [runTasks, List.foldl_cons] at ih ⊢
    rw [ih, processBlock_currentBlock]

theorem GetTransactions_runTasks {table : Char → Char} (r : inMemoryParserRepository)
    (source : GoInt → RpcReply (Option Block)) (order : List GoInt) (A : String) :
    (runTasks table r source order).GetTransactions A =
      r.GetTransactions A ++ order.flatMap fun b => gained table r A (source b) := by
  induction order generalizing r with
  | nil => simp [runTasks]
  | cons b rest ih =>
    have hstep := ih (ethereumParserService.processBlock table r (source b))
    simp only [runTasks, List.foldl_cons] at hstep ⊢
    rw [hstep, GetTransactions_processBlock, List.flatMap_cons, List.append_assoc]
    congr 2
    apply List.flatMap_congr
    intro c _
    exact gained_congr _ _ (processBlock_addresses r (source b)) A (source c)

/-! ## Go integers -/

theorem GoInt.val_ofInt (x : Int) (hlo : -9223372036854775808 ≤ x)
    (hhi : x ≤ 9223372036854775807) : (GoInt.ofInt x).val = x := by
  simp only [GoInt.ofInt, wrapInt]
  omega

theorem GoInt.val_add_one (i : GoInt) (hi : i.val < maxInt) :
    (i.add (GoInt.ofInt 1)).val = i.val + 1 := by
  have h1 : (GoInt.ofInt 1).val = 1 := GoInt.val_ofInt 1 (by omega) (by omega)
  have hlo := i.property.1
  unfold maxInt at hi
  rw [GoInt.add, h1]
  exact GoInt.val_ofInt _ (by omega) (by omega)

theorem GoInt.toInt_toUint (h : GoInt) : h.toUint.toInt = h := by
  apply Subtype.ext
  have hlo := h.property.1
  have hhi := h.property.2
  simp only [GoUint.toInt, GoInt.toUint, GoInt.ofInt, wrapInt]
  omega

/-! ## The dispatch loop -/

theorem dispatchLoop_range (n : Nat) :
    ∀ (fuel : Nat) (i h : GoInt), h.val < maxInt → i.val + n = h.val + 1 → n < fuel →
      ∃ blocks, ethereumParserService.dispatchLoop fuel i h = some blocks ∧
        blocks.map Subtype.val = (List.range n).map fun (k : Nat) => i.val + (k : Int) := by
  induction n with
  | zero =>
    intro fuel i h _ hin hfuel
    obtain ⟨f, rfl⟩ : ∃ f, fuel = f + 1 := ⟨fuel - 1, by omega⟩
    refine ⟨[], ?_, by simp⟩
    have hgt : ¬ i.val ≤ h.val := by omega
    simp [ethereumParserService.dispatchLoop, hgt]
  | succ n ih =>
    intro fuel i h hmax hin hfuel
    obtain ⟨f, rfl⟩ : ∃ f, fuel = f + 1 := ⟨fuel - 1, by omega⟩
    have hle : i.val ≤ h.val := by omega
    have hnext : (i.add (GoInt.ofInt 1)).val = i.val + 1 :=
      GoInt.val_add_one i (by omega)
    obtain ⟨blocks, hrun, hvals⟩ :=
      ih f (i.add (GoInt.ofInt 1)) h hmax (by rw [hnext]; omega) (by omega)
    refine ⟨i :: blocks, ?_, ?_⟩
    · simp [ethereumParserService.dispatchLoop, hle, hrun]
    · rw [List.map_cons, hvals, hnext, List.range_succ_eq_map, List.map_cons, List.map_map]
      simp only [Nat.cast_zero, add_zero, List.cons.injEq, true_and]
      apply List.map_congr_left
      intro k _
      simp only [Function.comp, Nat.cast_succ]
      omega

theorem dispatchLoop_at_maxInt (fuel : Nat) (i h : GoInt) (hmax : h.val = maxInt) :
    ethereumParserService.dispatchLoop fuel i h = none := by
  induction fuel generalizing i with
  | zero => rfl
  | succ f ih =>
    have hle : i.val ≤ h.val := by
      have := i.property.2
      unfold maxInt at hmax
      omega
    simp [ethereumParserService.dispatchLoop, hle, ih]

/-! ## One polling tick -/

theorem spawned_map_spawn (blocks : List GoInt) (tail : List Effect)
    (htail : spawned tail = []) :
    spawned (blocks.map Effect.spawn ++ tail) = blocks := by
  induction blocks with
  | nil => simpa using htail
  | cons b rest ih => simp [spawned, ih]

theorem spawned_tick_effects (blocks : List GoInt) (msg : String) (seconds : Nat) :
    spawned ([Effect.print msg] ++ blocks.map Effect.spawn ++ [Effect.sleep seconds]) =
      blocks := by
  rw [List.append_assoc, List.singleton_append]
  show spawned (blocks.map Effect.spawn ++ [Effect.sleep seconds]) = blocks
  exact spawned_map_spawn blocks _ rfl

theorem tick_no_subscription (fuel interval : Nat) (r : inMemoryParserRepository)
    (head : RpcReply String) (hcount : r.GetAddressCount = 0) :
    ethereumParserService.tick fuel interval r head = Exec.ret (r, []) := by
  simp [ethereumParserService.tick, hcount]

theorem tick_fetch_error (fuel interval : Nat) (r : inMemoryParserRepository)
    (head : RpcReply String) (err : String) (hcount : r.GetAddressCount ≠ 0)
    (hfetch : ethereumParserService.fetchBlockNumber head = Exec.ret (Except.error err)) :
    ethereumParserService.tick fuel interval r head =
      Exec.ret (r, [Effect.print ("Error fetching block number: " ++ err),
        Effect.sleep interval]) := by
  simp [ethereumParserService.tick, hcount, hfetch]

theorem tick_fetch_panic (fuel interval : Nat) (r : inMemoryParserRepository)
    (head : RpcReply String) (hcount : r.GetAddressCount ≠ 0)
    (hfetch : ethereumParserService.fetchBlockNumber head = Exec.panic) :
    ethereumParserService.tick fuel interval r head = Exec.panic := by
  simp [ethereumParserService.tick, hcount, hfetch]

theorem tick_nothing_new (fuel interval : Nat) (r : inMemoryParserRepository)
    (head : RpcReply String) (h : GoInt) (hcount : r.GetAddressCount ≠ 0)
    (hfetch : ethereumParserService.fetchBlockNumber head = Exec.ret (Except.ok h))
    (hle : h.val ≤ (ethereumParserService.startBlockOf r h).val) :
    ethereumParserService.tick fuel interval r head =
      Exec.ret (r, [Effect.sleep interval]) := by
  have hng : ¬ h.val > (ethereumParserService.startBlockOf r h).val := by omega
  simp [ethereumParserService.tick, hcount, hfetch, hng]

theorem tick_advances (fuel interval : Nat) (r : inMemoryParserRepository)
    (head : RpcReply String) (h : GoInt) (hcount : r.GetAddressCount ≠ 0)
    (hfetch : ethereumParserService.fetchBlockNumber head = Exec.ret (Except.ok h))
    (hgt : (ethereumParserService.startBlockOf r h).val < h.val)
    (hmax : h.val < maxInt)
    (hfuel : (h.val - (ethereumParserService.startBlockOf r h).val).toNat < fuel) :
    ∃ blocks : List GoInt,
      ethereumParserService.tick fuel interval r head =
        Exec.ret ({ r with currentBlock := h },
          [Effect.print "processing blockNumber"] ++ blocks.map Effect.spawn ++
            [Effect.sleep interval]) ∧
      blocks.map Subtype.val = scanRange (ethereumParserService.startBlockOf r h).val h.val := by
  have hstart1 : ((ethereumParserService.startBlockOf r h).add (GoInt.ofInt 1)).val =
      (ethereumParserService.startBlockOf r h).val + 1 :=
    GoInt.val_add_one _ (by omega)
  obtain ⟨blocks, hrun, hvals⟩ :=
    dispatchLoop_range (h.val - (ethereumParserService.startBlockOf r h).val).toNat fuel
      ((ethereumParserService.startBlockOf r h).add (GoInt.ofInt 1)) h hmax
      (by rw [hstart1]; omega) hfuel
  refine ⟨blocks, ?_, ?_⟩
  · simp [ethereumParserService.tick, hcount, hfetch, hgt, hrun,
      inMemoryParserRepository.SetCurrentBlockNumber, GoInt.toInt_toUint]
  · rw [hvals, hstart1]
    rfl

theorem tick_diverges_at_maxInt (fuel interval : Nat) (r : inMemoryParserRepository)
    (head : RpcReply String) (h : GoInt) (hcount : r.GetAddressCount ≠ 0)
    (hfetch : ethereumParserService.fetchBlockNumber head = Exec.ret (Except.ok h))
    (hgt : (ethereumParserService.startBlockOf r h).val < h.val)
    (hmax : h.val = maxInt) :
    ethereumParserService.tick fuel interval r head = Exec.outOfFuel := by
  simp [ethereumParserService.tick, hcount, hfetch, hgt, dispatchLoop_at_maxInt _ _ h hmax]

/-! ## Letter case -/

theorem toNat_ofNat_small (n : Nat) (h : n < 55296) : (Char.ofNat n).toNat = n := by
  have hv : n.isValidChar := Or.inl h
  simp [Char.ofNat, hv, Char.ofNatAux, Char.toNat, UInt32.toNat]

theorem toLowerRune_of_sameLetter {table : Char → Char}
    (hidem : ∀ c, toLowerRune table (toLowerRune table c) = toLowerRune table c)
    (a b : Char) (h : sameLetter table a b = true) :
    toLowerRune table a = toLowerRune table b := by
  simp only [sameLetter, Bool.or_eq_true, decide_eq_true_eq] at h
  rcases h with (h | h) | h
  · rw [h]
  · rw [← h, hidem a]
  · rw [← h, hidem b]

theorem map_toLowerRune_of_sameLetters {table : Char → Char}
    (hidem : ∀ c, toLowerRune table (toLowerRune table c) = toLowerRune table c)
    (as bs : List Char) (h : sameLetters table as bs = true) :
    as.map (toLowerRune table) = bs.map (toLowerRune table) := by
  induction as generalizing bs with
  | nil =>
    cases bs with
    | nil => rfl
    | cons b bs => simp [sameLetters] at h
  | cons a as ih =>
    cases bs with
    | nil => simp [sameLetters] at h
    | cons b bs =>
      simp only [sameLetters, Bool.and_eq_true] at h
      simp [toLowerRune_of_sameLetter hidem a b h.1, ih bs h.2]

theorem ToLower_of_differOnlyInCase {table : Char → Char}
    (hidem : ∀ c, toLowerRune table (toLowerRune table c) = toLowerRune table c)
    (A B : String) (h : differOnlyInCase table A B = true) :
    ToLower table A = ToLower table B := by
  unfold ToLower
  rw [map_toLowerRune_of_sameLetters hidem A.data B.data h]

theorem ToLower_idem {table : Char → Char}
    (hidem : ∀ c, toLowerRune table (toLowerRune table c) = toLowerRune table c)
    (A : String) : ToLower table (ToLower table A) = ToLower table A := by
  simp only [ToLower, List.map_map]
  congr 1
  apply List.map_congr_left
  intro c _
  exact hidem c

theorem eq_of_lower_of_differOnlyInCase {table : Char → Char}
    (hidem : ∀ c, toLowerRune table (toLowerRune table c) = toLowerRune table c)
    (k1 k2 : String) (h1 : ToLower table k1 = k1) (h2 : ToLower table k2 = k2)
    (h : differOnlyInCase table k1 k2 = true) : k1 = k2 := by
  rw [← h1, ← h2]
  exact ToLower_of_differOnlyInCase hidem k1 k2 h

theorem noCaseTwins_of_lower {table : Char → Char}
    (hidem : ∀ c, toLowerRune table (toLowerRune table c) = toLowerRune table c)
    (keys : List String) (hlower : ∀ k ∈ keys, ToLower table k = k) :
    noCaseTwins table keys := by
  intro k1 h1 k2 h2 h
  exact eq_of_lower_of_differOnlyInCase hidem k1 k2 (hlower k1 h1) (hlower k2 h2) h

theorem toLowerRune_latin1Capitals_idem (c : Char) :
    toLowerRune latin1Capitals (toLowerRune latin1Capitals c) =
      toLowerRune latin1Capitals c := by
  by_cases hascii : c.toNat ≤ 127
  · by_cases hup : 65 ≤ c.toNat ∧ c.toNat ≤ 90
    · have hval : (Char.ofNat (c.toNat + 32)).toNat = c.toNat + 32 :=
        toNat_ofNat_small _ (by omega)
      have hsmall : (Char.ofNat (c.toNat + 32)).toNat ≤ 127 := by omega
      have hnot : ¬ (65 ≤ (Char.ofNat (c.toNat + 32)).toNat ∧
          (Char.ofNat (c.toNat + 32)).toNat ≤ 90) := by omega
      simp [toLowerRune, hascii, hup, hsmall, hnot]
    · simp [toLowerRune, hascii, hup]
  · by_cases hcap : 192 ≤ c.toNat ∧ c.toNat ≤ 222 ∧ c.toNat ≠ 215
    · have hval : (Char.ofNat (c.toNat + 32)).toNat = c.toNat + 32 :=
        toNat_ofNat_small _ (by omega)
      have hbig : ¬ (Char.ofNat (c.toNat + 32)).toNat ≤ 127 := by omega
      have hnot : ¬ (192 ≤ (Char.ofNat (c.toNat + 32)).toNat ∧
          (Char.ofNat (c.toNat + 32)).toNat ≤ 222 ∧
          (Char.ofNat (c.toNat + 32)).toNat ≠ 215) := by omega
      simp only [toLowerRune, hascii, if_false, latin1Capitals, hcap, if_true, hbig, hnot,
        and_self, ne_eq, not_false_eq_true]
    · simp only [toLowerRune, hascii, if_false, latin1Capitals, hcap]

/-! ## Keys stay lower-case -/

theorem lower_keys_Subscribe {table : Char → Char}
    (hidem : ∀ c, toLowerRune table (toLowerRune table c) = toLowerRune table c)
    (r : inMemoryParserRepository) (A : String)
    (hlower : ∀ k ∈ r.addresses.keys, ToLower table k = k) :
    ∀ k ∈ (ethereumParserService.Subscribe table r A).1.addresses.keys,
      ToLower table k = k := by
  intro k hk
  cases hp : r.GetAddress (ToLower table A) with
  | true =>
    rw [Subscribe_of_present r A hp] at hk
    exact hlower k hk
  | false =>
    rw [Subscribe_of_absent r A hp] at hk
    rcases GoMap.mem_keys_set _ _ _ _ hk with h | h
    · rw [h]
      exact ToLower_idem hidem A
    · exact hlower k h

theorem Subscribe_transactions {table : Char → Char} (r : inMemoryParserRepository) (A : String) :
    (ethereumParserService.Subscribe table r A).1.transactions = r.transactions := by
  cases hp : r.GetAddress (ToLower table A) with
  | true => rw [Subscribe_of_present r A hp]
  | false => rw [Subscribe_of_absent r A hp]; rfl

theorem Subscribe_currentBlock {table : Char → Char} (r : inMemoryParserRepository) (A : String) :
    (ethereumParserService.Subscribe table r A).1.currentBlock = r.currentBlock := by
  cases hp : r.GetAddress (ToLower table A) with
  | true => rw [Subscribe_of_present r A hp]
  | false => rw [Subscribe_of_absent r A hp]; rfl

theorem lower_keys_collate {table : Char → Char}
    (hidem : ∀ c, toLowerRune table (toLowerRune table c) = toLowerRune table c)
    (r : inMemoryParserRepository) (txs : List Transaction)
    (txns : GoMap (List Transaction)) (hlower : ∀ k ∈ txns.keys, ToLower table k = k) :
    ∀ k ∈ (ethereumParserService.collate table r txs txns).keys, ToLower table k = k := by
  induction txs generalizing txns with
  | nil => exact hlower
  | cons txn rest ih =>
    simp only [ethereumParserService.collate]
    apply ih
    have hset : ∀ (m : GoMap (List Transaction)) (x : String) (v : List Transaction),
        (∀ k ∈ m.keys, ToLower table k = k) →
          ∀ k ∈ (m.set (ToLower table x) v).keys, ToLower table k = k := by
      intro m x v hm k hk
      rcases GoMap.mem_keys_set _ _ _ _ hk with h | h
      · rw [h]
        exact ToLower_idem hidem x
      · exact hm k h
    split_ifs <;> first
      | exact hlower
      | exact hset _ _ _ hlower
      | exact hset _ _ _ (hset _ _ _ hlower)

theorem mem_keys_foldl_appendEntry (txns store : GoMap (List Transaction)) (k : String)
    (hk : k ∈ GoMap.keys (txns.foldl inMemoryParserRepository.appendEntry store)) :
    k ∈ store.keys ∨ k ∈ txns.keys := by
  induction txns generalizing store with
  | nil => exact Or.inl hk
  | cons kv rest ih =>
    rw [List.foldl_cons] at hk
    rcases ih _ hk with h | h
    · rcases GoMap.mem_keys_set _ _ _ _ h with h2 | h2
      · right
        simp [GoMap.keys, h2]
      · exact Or.inl h2
    · right
      simp only [GoMap.keys, List.map_cons, List.mem_cons]
      exact Or.inr h

theorem lower_keys_processBlock {table : Char → Char}
    (hidem : ∀ c, toLowerRune table (toLowerRune table c) = toLowerRune table c)
    (r : inMemoryParserRepository) (reply : RpcReply (Option Block))
    (hlower : ∀ k ∈ r.transactions.keys, ToLower table k = k) :
    ∀ k ∈ (ethereumParserService.processBlock table r reply).transactions.keys,
      ToLower table k = k := by
  unfold ethereumParserService.processBlock
  cases ethereumParserService.fetchBlock reply with
  | error e => exact hlower
  | ok block =>
    intro k hk
    rcases mem_keys_foldl_appendEntry _ _ k hk with h | h
    · exact hlower k h
    · exact lower_keys_collate hidem r block.Transactions [] (by simp [GoMap.keys]) k h

theorem tick_ret_cases (fuel interval : Nat) (r r1 : inMemoryParserRepository)
    (head : RpcReply String) (effects : List Effect)
    (hrun : ethereumParserService.tick fuel interval r head = Exec.ret (r1, effects)) :
    (r1 = r ∧ spawned effects = []) ∨
    ∃ (h : GoInt) (blocks : List GoInt),
      r.GetAddressCount ≠ 0 ∧
      ethereumParserService.fetchBlockNumber head = Exec.ret (Except.ok h) ∧
      (ethereumParserService.startBlockOf r h).val < h.val ∧
      ethereumParserService.dispatchLoop fuel
        ((ethereumParserService.startBlockOf r h).add (GoInt.ofInt 1)) h = some blocks ∧
      r1 = { r with currentBlock := h } ∧
      effects = [Effect.print "processing blockNumber"] ++ blocks.map Effect.spawn ++
        [Effect.sleep interval] := by
  by_cases hc : r.GetAddressCount = 0
  · rw [tick_no_subscription fuel interval r head hc] at hrun
    simp only [Exec.ret.injEq, Prod.mk.injEq] at hrun
    left
    rw [← hrun.1, ← hrun.2]
    exact ⟨rfl, rfl⟩
  · cases hf : ethereumParserService.fetchBlockNumber head with
    | panic =>
      rw [tick_fetch_panic fuel interval r head hc hf] at hrun
      exact absurd hrun (by simp)
    | outOfFuel =>
      simp [ethereumParserService.tick, hc, hf] at hrun
    | ret res =>
      cases res with
      | error err =>
        rw [tick_fetch_error fuel interval r head err hc hf] at hrun
        simp only [Exec.ret.injEq, Prod.mk.injEq] at hrun
        left
        rw [← hrun.1, ← hrun.2]
        exact ⟨rfl, rfl⟩
      | ok h =>
        by_cases hg : (ethereumParserService.startBlockOf r h).val < h.val
        · cases hd : ethereumParserService.dispatchLoop fuel
              ((ethereumParserService.startBlockOf r h).add (GoInt.ofInt 1)) h with
          | none => simp [ethereumParserService.tick, hc, hf, hg, hd] at hrun
          | some blocks =>
            right
            simp only [ethereumParserService.tick, hc, hf, hg, hd, if_false, gt_iff_lt,
              if_true, Exec.ret.injEq, Prod.mk.injEq,
              inMemoryParserRepository.SetCurrentBlockNumber, GoInt.toInt_toUint] at hrun
            exact ⟨h, blocks, hc, rfl, hg, hd, hrun.1.symm, hrun.2.symm⟩
        · rw [tick_nothing_new fuel interval r head h hc hf (by omega)] at hrun
          simp only [Exec.ret.injEq, Prod.mk.injEq] at hrun
          left
          rw [← hrun.1, ← hrun.2]
          exact ⟨rfl, rfl⟩

theorem tick_keeps_maps (fuel interval : Nat) (r r1 : inMemoryParserRepository)
    (head : RpcReply String) (effects : List Effect)
    (hrun : ethereumParserService.tick fuel interval r head = Exec.ret (r1, effects)) :
    r1.addresses = r.addresses ∧ r1.transactions = r.transactions := by
  rcases tick_ret_cases fuel interval r r1 head effects hrun with
    ⟨h, _⟩ | ⟨h, blocks, _, _, _, _, h1, _⟩
  · rw [h]
    exact ⟨rfl, rfl⟩
  · rw [h1]
    exact ⟨rfl, rfl⟩

/-! ## Sequences of events -/

theorem run_cons_ret {table : Char → Char}
    (fuel interval : Nat) (r : inMemoryParserRepository) (ev : Event)
    (rest : List Event) (trace : List (inMemoryParserRepository × List Effect))
    (hrun : run table fuel interval r (ev :: rest) = Exec.ret trace) :
    ∃ r1 effects tail, step table fuel interval r ev = Exec.ret (r1, effects) ∧
      run table fuel interval r1 rest = Exec.ret tail ∧ trace = (r1, effects) :: tail := by
  rw [run] at hrun
  split at hrun
  · rename_i r1 effects hstep
    split at hrun
    · rename_i tail htail
      simp only [Exec.ret.injEq] at hrun
      exact ⟨r1, effects, tail, hstep, htail, hrun.symm⟩
    · exact absurd hrun (by simp)
    · exact absurd hrun (by simp)
  · exact absurd hrun (by simp)
  · exact absurd hrun (by simp)

theorem run_preserves {table : Char → Char}
    (P : inMemoryParserRepository → Prop) (fuel interval : Nat)
    (hstep : ∀ r ev r1 effects, P r →
      step table fuel interval r ev = Exec.ret (r1, effects) → P r1)
    (evs : List Event) :
    ∀ r trace, P r → run table fuel interval r evs = Exec.ret trace →
      ∀ s ∈ trace, P s.1 := by
  induction evs with
  | nil =>
    intro r trace _ hrun s hs
    simp only [run, Exec.ret.injEq] at hrun
    rw [← hrun] at hs
    simp at hs
  | cons ev rest ih =>
    intro r trace hP hrun s hs
    obtain ⟨r1, effects, tail, h1, h2, rfl⟩ := run_cons_ret fuel interval r ev rest trace hrun
    have hP1 : P r1 := hstep r ev r1 effects hP h1
    rcases List.mem_cons.mp hs with h | h
    · rw [h]
      exact hP1
    · exact ih r1 tail hP1 h2 s h

theorem step_keeps_lower_keys {table : Char → Char}
    (hidem : ∀ c, toLowerRune table (toLowerRune table c) = toLowerRune table c)
    (fuel interval : Nat) (r r1 : inMemoryParserRepository)
    (ev : Event) (effects : List Effect)
    (hlower : (∀ k ∈ r.addresses.keys, ToLower table k = k) ∧
      (∀ k ∈ r.transactions.keys, ToLower table k = k))
    (hstep : step table fuel interval r ev = Exec.ret (r1, effects)) :
    (∀ k ∈ r1.addresses.keys, ToLower table k = k) ∧
      (∀ k ∈ r1.transactions.keys, ToLower table k = k) := by
  cases ev with
  | subscribe address =>
    simp only [step, Exec.ret.injEq, Prod.mk.injEq] at hstep
    rw [← hstep.1]
    refine ⟨lower_keys_Subscribe hidem r address hlower.1, ?_⟩
    rw [Subscribe_transactions]
    exact hlower.2
  | poll head =>
    obtain ⟨ha, ht⟩ := tick_keeps_maps fuel interval r r1 head effects hstep
    rw [ha, ht]
    exact hlower
  | task reply =>
    simp only [step, Exec.ret.injEq, Prod.mk.injEq] at hstep
    rw [← hstep.1]
    refine ⟨?_, lower_keys_processBlock hidem r reply hlower.2⟩
    rw [processBlock_addresses]
    exact hlower.1

/-! ## The cursor along a run -/

theorem dispatchLoop_bounds (fuel : Nat) :
    ∀ (i h : GoInt) (blocks : List GoInt),
      ethereumParserService.dispatchLoop fuel i h = some blocks →
        ∀ b ∈ blocks, i.val ≤ b.val ∧ b.val ≤ h.val := by
  induction fuel with
  | zero =>
    intro i h blocks hrun
    simp [ethereumParserService.dispatchLoop] at hrun
  | succ f ih =>
    intro i h blocks hrun b hb
    by_cases hle : i.val ≤ h.val
    · have hmax : h.val ≠ maxInt := by
        intro hm
        rw [dispatchLoop_at_maxInt (f + 1) i h hm] at hrun
        exact absurd hrun (by simp)
      have hnext : (i.add (GoInt.ofInt 1)).val = i.val + 1 := by
        apply GoInt.val_add_one
        have := h.property.2
        unfold maxInt at hmax ⊢
        omega
      cases htail : ethereumParserService.dispatchLoop f (i.add (GoInt.ofInt 1)) h with
      | none => simp [ethereumParserService.dispatchLoop, hle, htail] at hrun
      | some tail =>
        simp only [ethereumParserService.dispatchLoop, hle, if_true, htail, Option.map_some',
          Option.some.injEq] at hrun
        rw [← hrun] at hb
        rcases List.mem_cons.mp hb with h1 | h1
        · rw [h1]
          exact ⟨le_refl _, hle⟩
        · have := ih _ h tail htail b h1
          rw [hnext] at this
          exact ⟨by omega, this.2⟩
    · simp only [ethereumParserService.dispatchLoop, hle, if_false, Option.some.injEq] at hrun
      rw [← hrun] at hb
      simp at hb

theorem startBlockOf_of_ne_zero (r : inMemoryParserRepository) (h : GoInt)
    (hc : r.currentBlock.val ≠ 0) : ethereumParserService.startBlockOf r h = r.currentBlock := by
  simp [ethereumParserService.startBlockOf, inMemoryParserRepository.GetCurrentBlockNumber, hc]

theorem startBlockOf_of_zero (r : inMemoryParserRepository) (h : GoInt)
    (hc : r.currentBlock.val = 0) :
    ethereumParserService.startBlockOf r h = h.sub (GoInt.ofInt 5) := by
  simp [ethereumParserService.startBlockOf, inMemoryParserRepository.GetCurrentBlockNumber, hc]

theorem headOf_eq (head : RpcReply String) (h : GoInt)
    (hfetch : ethereumParserService.fetchBlockNumber head = Exec.ret (Except.ok h)) :
    headOf head = some h := by
  simp [headOf, hfetch]

theorem tick_cursor_le (fuel interval : Nat) (r r1 : inMemoryParserRepository)
    (head : RpcReply String) (effects : List Effect)
    (hrun : ethereumParserService.tick fuel interval r head = Exec.ret (r1, effects))
    (hnonneg : r.currentBlock.val ≠ 0 ∨ ∀ h, headOf head = some h → 0 ≤ h.val) :
    r.currentBlock.val ≤ r1.currentBlock.val := by
  rcases tick_ret_cases fuel interval r r1 head effects hrun with
    ⟨h, _⟩ | ⟨h, blocks, _, hf, hg, _, h1, _⟩
  · rw [h]
  · rw [h1]
    show r.currentBlock.val ≤ h.val
    by_cases hc : r.currentBlock.val = 0
    · rcases hnonneg with hn | hn
      · exact absurd hc hn
      · rw [hc]
        exact hn h (headOf_eq head h hf)
    · rw [startBlockOf_of_ne_zero r h hc] at hg
      omega

theorem step_cursor_le {table : Char → Char}
    (fuel interval : Nat) (r r1 : inMemoryParserRepository) (ev : Event)
    (effects : List Effect) (hstep : step table fuel interval r ev = Exec.ret (r1, effects))
    (hnonneg : ev.headNonNegative = true) :
    r.currentBlock.val ≤ r1.currentBlock.val := by
  cases ev with
  | subscribe address =>
    simp only [step, Exec.ret.injEq, Prod.mk.injEq] at hstep
    rw [← hstep.1, Subscribe_currentBlock]
  | poll head =>
    apply tick_cursor_le fuel interval r r1 head effects hstep
    right
    intro h hh
    simpa [Event.headNonNegative, hh] using hnonneg
  | task reply =>
    simp only [step, Exec.ret.injEq, Prod.mk.injEq] at hstep
    rw [← hstep.1, processBlock_currentBlock]

theorem step_above {table : Char → Char}
    (fuel interval : Nat) (r r1 : inMemoryParserRepository) (ev : Event)
    (effects : List Effect) (floor : Int) (hpos : 0 < floor)
    (hfloor : floor ≤ r.currentBlock.val)
    (hstep : step table fuel interval r ev = Exec.ret (r1, effects)) :
    floor ≤ r1.currentBlock.val ∧ ∀ b ∈ spawned effects, floor < b.val := by
  cases ev with
  | subscribe address =>
    simp only [step, Exec.ret.injEq, Prod.mk.injEq] at hstep
    rw [← hstep.1, ← hstep.2, Subscribe_currentBlock]
    exact ⟨hfloor, by simp [spawned]⟩
  | task reply =>
    simp only [step, Exec.ret.injEq, Prod.mk.injEq] at hstep
    rw [← hstep.1, ← hstep.2, processBlock_currentBlock]
    exact ⟨hfloor, by simp [spawned]⟩
  | poll head =>
    rcases tick_ret_cases fuel interval r r1 head effects hstep with
      ⟨h, hs⟩ | ⟨h, blocks, _, _, hg, hd, h1, he⟩
    · rw [h, hs]
      exact ⟨hfloor, by simp⟩
    · have hc : r.currentBlock.val ≠ 0 := by omega
      rw [startBlockOf_of_ne_zero r h hc] at hg hd
      have hnext : (r.currentBlock.add (GoInt.ofInt 1)).val = r.currentBlock.val + 1 := by
        apply GoInt.val_add_one
        have := h.property.2
        unfold maxInt
        omega
      rw [h1, he, spawned_tick_effects]
      refine ⟨by show floor ≤ h.val; omega, ?_⟩
      intro b hb
      have := (dispatchLoop_bounds fuel _ h blocks hd b hb).1
      rw [hnext] at this
      omega

theorem step_completes (table : Char → Char)
    (fuel interval : Nat) (r : inMemoryParserRepository) (ev : Event)
    (hfuel : 18446744073709551616 ≤ fuel) (hev : ev.completes = true) :
    ∃ r1 effects, step table fuel interval r ev = Exec.ret (r1, effects) := by
  cases ev with
  | subscribe address => exact ⟨_, _, rfl⟩
  | task reply => exact ⟨_, _, rfl⟩
  | poll head =>
    by_cases hc : r.GetAddressCount = 0
    · exact ⟨_, _, tick_no_subscription fuel interval r head hc⟩
    · cases hf : ethereumParserService.fetchBlockNumber head with
      | panic => simp [Event.completes, hf] at hev
      | outOfFuel => simp [Event.completes, hf] at hev
      | ret res =>
        cases res with
        | error err => exact ⟨_, _, tick_fetch_error fuel interval r head err hc hf⟩
        | ok h =>
          have hmax : h.val < maxInt := by simpa [Event.completes, hf] using hev
          by_cases hg : (ethereumParserService.startBlockOf r h).val < h.val
          · have hlo := (ethereumParserService.startBlockOf r h).property.1
            have hhi := h.property.2
            obtain ⟨blocks, hrun, _⟩ :=
              tick_advances fuel interval r head h hc hf hg hmax (by omega)
            exact ⟨_, _, hrun⟩
          · exact ⟨_, _, tick_nothing_new fuel interval r head h hc hf (by omega)⟩

theorem run_completes (table : Char → Char)
    (fuel interval : Nat) (hfuel : 18446744073709551616 ≤ fuel)
    (evs : List Event) :
    ∀ r, (∀ ev ∈ evs, ev.completes = true) →
      ∃ trace, run table fuel interval r evs = Exec.ret trace := by
  induction evs with
  | nil => intro r _; exact ⟨[], rfl⟩
  | cons ev rest ih =>
    intro r hall
    obtain ⟨r1, effects, hstep⟩ :=
      step_completes table fuel interval r ev hfuel (hall ev (List.mem_cons_self _ _))
    obtain ⟨tail, htail⟩ := ih r1 fun e he => hall e (List.mem_cons_of_mem _ he)
    exact ⟨(r1, effects) :: tail, by simp [run, hstep, htail]⟩

theorem run_cursor_chain {table : Char → Char} (fuel interval : Nat) (evs : List Event) :
    ∀ r trace, (∀ ev ∈ evs, ev.headNonNegative = true) →
      run table fuel interval r evs = Exec.ret trace →
      List.Chain (fun a b : inMemoryParserRepository => a.currentBlock.val ≤ b.currentBlock.val)
        r (trace.map Prod.fst) := by
  induction evs with
  | nil =>
    intro r trace _ hrun
    simp only [run, Exec.ret.injEq] at hrun
    rw [← hrun]
    exact List.Chain.nil
  | cons ev rest ih =>
    intro r trace hall hrun
    obtain ⟨r1, effects, tail, h1, h2, rfl⟩ := run_cons_ret fuel interval r ev rest trace hrun
    rw [List.map_cons]
    exact List.Chain.cons
      (step_cursor_le fuel interval r r1 ev effects h1 (hall ev (List.mem_cons_self _ _)))
      (ih r1 tail (fun e he => hall e (List.mem_cons_of_mem _ he)) h2)

theorem run_above {table : Char → Char}
    (fuel interval : Nat) (floor : Int) (hpos : 0 < floor) (evs : List Event) :
    ∀ r trace, floor ≤ r.currentBlock.val → run table fuel interval r evs = Exec.ret trace →
      ∀ s ∈ trace, ∀ b ∈ spawned s.2, floor < b.val := by
  induction evs with
  | nil =>
    intro r trace _ hrun s hs
    simp only [run, Exec.ret.injEq] at hrun
    rw [← hrun] at hs
    simp at hs
  | cons ev rest ih =>
    intro r trace hfloor hrun s hs
    obtain ⟨r1, effects, tail, h1, h2, rfl⟩ := run_cons_ret fuel interval r ev rest trace hrun
    have hstep := step_above fuel interval r r1 ev effects floor hpos hfloor h1
    rcases List.mem_cons.mp hs with h | h
    · rw [h]
      exact hstep.2
    · exact ih r1 tail hstep.1 h2 s h

/-! ## The scan range -/

theorem mem_scanRange (start h b : Int) : b ∈ scanRange start h ↔ start < b ∧ b ≤ h := by
  simp only [scanRange, List.mem_map, List.mem_range]
  constructor
  · rintro ⟨k, hk, rfl⟩
    omega
  · rintro ⟨h1, h2⟩
    exact ⟨(b - start - 1).toNat, by omega, by omega⟩

theorem nodup_scanRange (start h : Int) : (scanRange start h).Nodup := by
  unfold scanRange
  apply List.Nodup.map _ (List.nodup_range _)
  intro a b hab
  simp only at hab
  omega

theorem count_scanRange (start h b : Int) :
    (scanRange start h).count b = if start < b ∧ b ≤ h then 1 else 0 := by
  rw [List.count_eq_of_nodup (nodup_scanRange start h)]
  simp only [mem_scanRange]

/-! ## The claims -/

/-- C2: for a successfully fetched block and any registry, `processBlock` extends the
stored sequence of every subscribed address `A` by exactly the block's transactions whose
lower-cased sender or lower-cased receiver is `A`, in block order, each once per
occurrence in the block (so a self-transfer is added once), and leaves the sequence of
every unsubscribed address, the registry and the cursor as they were. It holds whatever
the lower-case table is. -/
theorem processBlock_extends_sequences (table : Char → Char) (r : inMemoryParserRepository)
    (block : Block) (A : String) :
    (r.GetAddress A = true →
      (ethereumParserService.processBlock table r
          (RpcReply.decoded (some block))).GetTransactions A =
        r.GetTransactions A ++ block.Transactions.filter (touches table A)) ∧
    (r.GetAddress A = false →
      (ethereumParserService.processBlock table r
          (RpcReply.decoded (some block))).GetTransactions A =
        r.GetTransactions A) ∧
    (∀ txn : Transaction, r.GetAddress A = true → touches table A txn = true →
      ((ethereumParserService.processBlock table r
          (RpcReply.decoded (some block))).GetTransactions A).count txn =
        (r.GetTransactions A).count txn + block.Transactions.count txn) ∧
    (ethereumParserService.processBlock table r (RpcReply.decoded (some block))).addresses =
      r.addresses ∧
    (ethereumParserService.processBlock table r (RpcReply.decoded (some block))).currentBlock =
      r.currentBlock := by
  have hkey := @GetTransactions_processBlock table r (RpcReply.decoded (some block)) A
  have hgain : gained table r A (RpcReply.decoded (some block)) = matchesOf table r A block :=
    rfl
  rw [hgain] at hkey
  refine ⟨?_, ?_, ?_, processBlock_addresses _ _, processBlock_currentBlock _ _⟩
  · intro hsub
    rw [hkey]
    simp [matchesOf, hsub]
  · intro hsub
    rw [hkey]
    simp [matchesOf, hsub]
  · intro txn hsub htouch
    rw [hkey]
    simp [matchesOf, hsub, List.count_append, List.count_filter htouch]

/-- C3: for every repository state and address, the second of two successive
`Subscribe(A)` calls returns false and leaves the repository unchanged, and the
subscription count after both calls exceeds the count before them by at most 1. It
holds whatever the lower-case table is. -/
theorem Subscribe_twice (table : Char → Char) (r : inMemoryParserRepository) (A : String) :
    (ethereumParserService.Subscribe table
      (ethereumParserService.Subscribe table r A).1 A).2 = false ∧
    (ethereumParserService.Subscribe table (ethereumParserService.Subscribe table r A).1 A).1 =
      (ethereumParserService.Subscribe table r A).1 ∧
    (ethereumParserService.Subscribe table
        (ethereumParserService.Subscribe table r A).1 A).1.GetAddressCount ≤
      r.GetAddressCount + 1 := by
  have hsecond := Subscribe_of_present (ethereumParserService.Subscribe table r A).1 A
    (GetAddress_after_Subscribe r A)
  rw [hsecond]
  exact ⟨rfl, rfl, count_Subscribe_le r A⟩

/-- C6, as stated, fails: a fresh repository does not hold the empty key, and
`Subscribe("")` on it returns true and stores the empty key, whatever the lower-case
table is. -/
theorem Subscribe_empty_on_fresh_repository :
    NewInMemoryParserRepository.GetAddress "" = false ∧
    ∀ table : Char → Char,
      ethereumParserService.Subscribe table NewInMemoryParserRepository "" =
        ({ NewInMemoryParserRepository with addresses := [("", true)] }, true) :=
  ⟨rfl, fun _ => rfl⟩

/-- C6, amended: `Subscribe` returns false exactly when the lower-cased address is
already subscribed, and then leaves the repository unchanged; it has no check for the
empty string, which it subscribes like any other absent address. The empty address is
refused by `handleSubscribe`, which answers 400 and leaves the repository unchanged. -/
theorem Subscribe_refuses_only_present (table : Char → Char) (r : inMemoryParserRepository)
    (A : String) :
    ((ethereumParserService.Subscribe table r A).2 = false ↔
      r.GetAddress (ToLower table A) = true) ∧
    (r.GetAddress (ToLower table A) = true →
      (ethereumParserService.Subscribe table r A).1 = r) ∧
    (r.GetAddress "" = false →
      ethereumParserService.Subscribe table r "" = ((r.AddAddress "").1, true)) ∧
    parserHttp.handleSubscribe table r { Method := "POST", Body := some "" } = (r, 400) := by
  refine ⟨?_, ?_, ?_, ?_⟩
  · cases hp : r.GetAddress (ToLower table A) with
    | true => simp [Subscribe_of_present r A hp]
    | false => simp [Subscribe_of_absent r A hp]
  · intro hp
    rw [Subscribe_of_present r A hp]
  · intro hp
    have hempty : ToLower table "" = "" := rfl
    have := @Subscribe_of_absent table r "" (by rw [hempty]; exact hp)
    rw [hempty] at this
    exact this
  · simp [parserHttp.handleSubscribe]

/-- C10, as stated, fails: `AddAddress` returns true for an address that is already
present, and it stores `0xABC` under that very key, not under `0xabc`. -/
theorem AddAddress_neither_refuses_nor_normalizes :
    oneSubscriber.GetAddress "0xabc" = true ∧
    (oneSubscriber.AddAddress "0xabc").2 = true ∧
    (NewInMemoryParserRepository.AddAddress "0xABC").1.addresses = [("0xABC", true)] ∧
    (NewInMemoryParserRepository.AddAddress "0xABC").1.GetAddress "0xabc" = false := by
  decide

/-- C10, amended: `AddAddress` stores the address as given and always returns true;
afterwards the address is present, and when it was present before, the repository is
unchanged. Lower-casing and the refusal of a present address are the work of
`Subscribe`: it returns false without mutation when the lower-cased address is
present, and otherwise adds the lower-cased address and returns true. -/
theorem AddAddress_always_succeeds (table : Char → Char) (r : inMemoryParserRepository)
    (address : String) :
    (r.AddAddress address).2 = true ∧
    (r.AddAddress address).1.addresses = r.addresses.set address true ∧
    (r.AddAddress address).1.GetAddress address = true ∧
    (r.GetAddress address = true → (r.AddAddress address).1 = r) ∧
    (r.GetAddress (ToLower table address) = true →
      ethereumParserService.Subscribe table r address = (r, false)) ∧
    (r.GetAddress (ToLower table address) = false →
      ethereumParserService.Subscribe table r address =
        ((r.AddAddress (ToLower table address)).1, true)) :=
  ⟨rfl, rfl, GetAddress_AddAddress_same r address, AddAddress_of_GetAddress r address,
    Subscribe_of_present r address, Subscribe_of_absent r address⟩

/-- C7, on the code: a `result` of fewer than two bytes makes `fetchBlockNumber` panic,
and the tick with it; a `result` that does not start with `0x` is parsed from its third
byte on, so `zz10` is head 16 and the tick dispatches blocks 12..16 and moves the cursor. -/
theorem fetchBlockNumber_on_malformed_results :
    ethereumParserService.fetchBlockNumber (RpcReply.decoded "") = Exec.panic ∧
    ethereumParserService.fetchBlockNumber (RpcReply.decoded "0") = Exec.panic ∧
    ethereumParserService.tick 10 5 oneSubscriber (RpcReply.decoded "") = Exec.panic ∧
    ethereumParserService.fetchBlockNumber (RpcReply.decoded "zz10") =
      Exec.ret (Except.ok (GoInt.ofInt 16)) ∧
    ethereumParserService.tick 10 5 oneSubscriber (RpcReply.decoded "zz10") =
      Exec.ret ({ oneSubscriber with currentBlock := GoInt.ofInt 16 },
        [Effect.print "processing blockNumber", Effect.spawn (GoInt.ofInt 12),
         Effect.spawn (GoInt.ofInt 13), Effect.spawn (GoInt.ofInt 14),
         Effect.spawn (GoInt.ofInt 15), Effect.spawn (GoInt.ofInt 16), Effect.sleep 5]) := by
  refine ⟨by decide, by decide, by decide, by decide, by decide⟩

/-- C8, on the code: with no subscription a pass of the scheduling loop that is not
cancelled does nothing, does not reach `time.Sleep`, and the loop goes on. -/
theorem loopPass_without_subscription_does_not_sleep (fuel interval : Nat)
    (head : RpcReply String) :
    ethereumParserService.loopPass fuel interval NewInMemoryParserRepository false head =
      Exec.ret (NewInMemoryParserRepository, [], true) ∧
    sleeps [] = false := by
  have hcount : NewInMemoryParserRepository.GetAddressCount = 0 := rfl
  simp [ethereumParserService.loopPass, tick_no_subscription _ _ _ _ hcount, sleeps]

/-- C1, as stated, fails at the largest head number: with one subscription and the
cursor at 0 the fetch of `0x7fffffffffffffff` succeeds and the head is above the start,
yet the tick returns for no amount of fuel (the loop counter wraps at the largest `int`
and the loop condition stays true), so no cursor is written. -/
theorem tick_at_largest_head_never_returns :
    oneSubscriber.GetAddressCount = 1 ∧
    ethereumParserService.fetchBlockNumber (RpcReply.decoded "0x7fffffffffffffff") =
      Exec.ret (Except.ok (GoInt.ofInt 9223372036854775807)) ∧
    ¬ ∃ (fuel : Nat) (res : inMemoryParserRepository × List Effect),
      ethereumParserService.tick fuel 5 oneSubscriber (RpcReply.decoded "0x7fffffffffffffff") =
        Exec.ret res := by
  have hfetch : ethereumParserService.fetchBlockNumber
      (RpcReply.decoded "0x7fffffffffffffff") =
      Exec.ret (Except.ok (GoInt.ofInt 9223372036854775807)) := by decide
  refine ⟨by decide, hfetch, ?_⟩
  rintro ⟨fuel, res, hrun⟩
  rw [tick_diverges_at_maxInt fuel 5 oneSubscriber _ _ (by decide) hfetch (by decide)
    (by decide)] at hrun
  exact absurd hrun (by simp)

/-- C1, amended: for a polling tick with at least one subscription whose head fetch
returns `h` below the largest `int`, with `start` the cursor when it is non-zero and
`h - 5` (in `int` arithmetic) when it is 0: if `h > start` and the loop is given more
than `h - start` passes, the tick returns, the block numbers handed to `processBlock`
are exactly `start+1, ..., h` in this order, each once and none outside, and the cursor
after the tick is `h`. -/
theorem tick_dispatches_scan_range (fuel interval : Nat) (r : inMemoryParserRepository)
    (head : RpcReply String) (h : GoInt) (hcount : r.GetAddressCount ≠ 0)
    (hfetch : ethereumParserService.fetchBlockNumber head = Exec.ret (Except.ok h))
    (hgt : (ethereumParserService.startBlockOf r h).val < h.val)
    (hmax : h.val < maxInt)
    (hfuel : (h.val - (ethereumParserService.startBlockOf r h).val).toNat < fuel) :
    (r.currentBlock.val ≠ 0 → ethereumParserService.startBlockOf r h = r.currentBlock) ∧
    (r.currentBlock.val = 0 → -9223372036854775803 ≤ h.val →
      (ethereumParserService.startBlockOf r h).val = h.val - 5) ∧
    ∃ effects : List Effect,
      ethereumParserService.tick fuel interval r head =
        Exec.ret ({ r with currentBlock := h }, effects) ∧
      (spawned effects).map Subtype.val =
        scanRange (ethereumParserService.startBlockOf r h).val h.val ∧
      ∀ b : Int, ((spawned effects).map Subtype.val).count b =
        if (ethereumParserService.startBlockOf r h).val < b ∧ b ≤ h.val then 1 else 0 := by
  refine ⟨startBlockOf_of_ne_zero r h, ?_, ?_⟩
  · intro hzero hlow
    have hhi := h.property.2
    rw [startBlockOf_of_zero r h hzero, GoInt.sub,
      GoInt.val_ofInt 5 (by omega) (by omega)]
    exact GoInt.val_ofInt _ (by omega) (by omega)
  · obtain ⟨blocks, hrun, hvals⟩ :=
      tick_advances fuel interval r head h hcount hfetch hgt hmax hfuel
    refine ⟨_, hrun, ?_, ?_⟩
    · rw [spawned_tick_effects, hvals]
    · intro b
      rw [spawned_tick_effects, hvals]
      exact count_scanRange _ _ b

/-- C1 at head 100 with the cursor at 0: blocks 96..100 are dispatched and the cursor
becomes 100. -/
theorem tick_dispatches_scan_range_at_100 :
    ∃ effects : List Effect,
      ethereumParserService.tick 10 5 oneSubscriber (RpcReply.decoded "0x64") =
        Exec.ret ({ oneSubscriber with currentBlock := GoInt.ofInt 100 }, effects) ∧
      (spawned effects).map Subtype.val = [96, 97, 98, 99, 100] := by
  obtain ⟨_, _, effects, hrun, hvals, _⟩ :=
    tick_dispatches_scan_range 10 5 oneSubscriber (RpcReply.decoded "0x64") (GoInt.ofInt 100)
      (by decide) (by decide) (by decide) (by decide) (by decide)
  refine ⟨effects, hrun, ?_⟩
  rw [hvals]
  decide

/-- C4: let the lower-case table be such that lower-casing a lower-cased rune changes
nothing (as in the Unicode data, where the lower-case form of a rune is a lower-case
rune). For every repository state and two addresses that differ only in letter case
(at each position the runes are equal or one is the lower-case form of the other),
`Subscribe(B)` after `Subscribe(A)` returns false and changes neither the repository nor
the subscription count, `GetTransactions(A)` equals `GetTransactions(B)` in every state,
and along every sequence of `Subscribe` calls, polling ticks and `processBlock` runs
from a fresh repository, no state holds two registry keys or two store keys that differ
only in letter case. -/
theorem case_variants_are_one_subscription (table : Char → Char)
    (hidem : ∀ c, toLowerRune table (toLowerRune table c) = toLowerRune table c)
    (r : inMemoryParserRepository) (A B : String)
    (hcase : differOnlyInCase table A B = true) :
    (ethereumParserService.Subscribe table
      (ethereumParserService.Subscribe table r A).1 B).2 = false ∧
    (ethereumParserService.Subscribe table (ethereumParserService.Subscribe table r A).1 B).1 =
      (ethereumParserService.Subscribe table r A).1 ∧
    (ethereumParserService.Subscribe table
        (ethereumParserService.Subscribe table r A).1 B).1.GetAddressCount =
      (ethereumParserService.Subscribe table r A).1.GetAddressCount ∧
    (∀ s : inMemoryParserRepository,
      ethereumParserService.GetTransactions table s A =
        ethereumParserService.GetTransactions table s B) ∧
    ∀ (fuel interval : Nat) (evs : List Event)
      (trace : List (inMemoryParserRepository × List Effect)),
      run table fuel interval NewInMemoryParserRepository evs = Exec.ret trace →
        ∀ s ∈ trace,
          noCaseTwins table s.1.addresses.keys ∧ noCaseTwins table s.1.transactions.keys := by
  have hlower : ToLower table A = ToLower table B :=
    ToLower_of_differOnlyInCase hidem A B hcase
  have hsecond := Subscribe_of_present (ethereumParserService.Subscribe table r A).1 B
    (by rw [← hlower]; exact GetAddress_after_Subscribe r A)
  rw [hsecond]
  refine ⟨rfl, rfl, rfl, ?_, ?_⟩
  · intro s
    simp [ethereumParserService.GetTransactions, hlower]
  · intro fuel interval evs trace hrun s hs
    have hinv := run_preserves
      (fun q => (∀ k ∈ q.addresses.keys, ToLower table k = k) ∧
        (∀ k ∈ q.transactions.keys, ToLower table k = k))
      fuel interval
      (fun q ev q1 effects hq hstep =>
        step_keeps_lower_keys hidem fuel interval q q1 ev effects hq hstep)
      evs NewInMemoryParserRepository trace
      (by simp [NewInMemoryParserRepository, GoMap.keys]) hrun s hs
    exact ⟨noCaseTwins_of_lower hidem _ hinv.1, noCaseTwins_of_lower hidem _ hinv.2⟩

/-- C4 at the addresses `0xAbÉ` and `0xaBé` on a fresh repository, with the Latin-1
excerpt of the lower-case table: the second subscription is refused. -/
theorem case_variants_are_one_subscription_example :
    ethereumParserService.Subscribe latin1Capitals NewInMemoryParserRepository "0xAbÉ" =
      ({ NewInMemoryParserRepository with addresses := [("0xabé", true)] }, true) ∧
    (ethereumParserService.Subscribe latin1Capitals
      (ethereumParserService.Subscribe latin1Capitals NewInMemoryParserRepository
        "0xAbÉ").1 "0xaBé").2 = false ∧
    (ethereumParserService.Subscribe latin1Capitals
      (ethereumParserService.Subscribe latin1Capitals NewInMemoryParserRepository
        "0xAbÉ").1 "0xaBé").1 =
      (ethereumParserService.Subscribe latin1Capitals NewInMemoryParserRepository "0xAbÉ").1 ∧
    (ethereumParserService.Subscribe latin1Capitals
      (ethereumParserService.Subscribe latin1Capitals NewInMemoryParserRepository
        "0xAbÉ").1 "0xaBé").1.GetAddressCount =
      (ethereumParserService.Subscribe latin1Capitals NewInMemoryParserRepository
        "0xAbÉ").1.GetAddressCount ∧
    (∀ s : inMemoryParserRepository,
      ethereumParserService.GetTransactions latin1Capitals s "0xAbÉ" =
        ethereumParserService.GetTransactions latin1Capitals s "0xaBé") ∧
    ∀ (fuel interval : Nat) (evs : List Event)
      (trace : List (inMemoryParserRepository × List Effect)),
      run latin1Capitals fuel interval NewInMemoryParserRepository evs = Exec.ret trace →
        ∀ s ∈ trace,
          noCaseTwins latin1Capitals s.1.addresses.keys ∧
            noCaseTwins latin1Capitals s.1.transactions.keys :=
  ⟨by decide,
    case_variants_are_one_subscription latin1Capitals toLowerRune_latin1Capitals_idem
      NewInMemoryParserRepository "0xAbÉ" "0xaBé" (by decide)⟩

/-- C9, as stated, fails: from a fresh repository, after one subscription, a poll whose
head fetch returns `0x-1` (which `strconv.ParseInt` reads as -1) moves the cursor from 0
down to -1, whatever the lower-case table is. -/
theorem cursor_decreases_on_negative_head :
    ∃ trace : List (inMemoryParserRepository × List Effect),
      (∀ table : Char → Char,
        run table 10 5 NewInMemoryParserRepository
          [Event.subscribe "0xAbC", Event.poll (RpcReply.decoded "0x-1")] =
          Exec.ret trace) ∧
      trace.map (fun s => s.1.currentBlock.val) = [0, -1] := by
  refine ⟨[(oneSubscriber, []),
    ({ oneSubscriber with currentBlock := GoInt.ofInt (-1) },
      [Effect.print "processing blockNumber", Effect.spawn (GoInt.ofInt (-5)),
       Effect.spawn (GoInt.ofInt (-4)), Effect.spawn (GoInt.ofInt (-3)),
       Effect.spawn (GoInt.ofInt (-2)), Effect.spawn (GoInt.ofInt (-1)), Effect.sleep 5])],
    ?_, by decide⟩
  intro table
  have hsub := Subscribe_fresh_eq_oneSubscriber table
  have htick : ethereumParserService.tick 10 5 oneSubscriber (RpcReply.decoded "0x-1") =
      Exec.ret ({ oneSubscriber with currentBlock := GoInt.ofInt (-1) },
        [Effect.print "processing blockNumber", Effect.spawn (GoInt.ofInt (-5)),
         Effect.spawn (GoInt.ofInt (-4)), Effect.spawn (GoInt.ofInt (-3)),
         Effect.spawn (GoInt.ofInt (-2)), Effect.spawn (GoInt.ofInt (-1)),
         Effect.sleep 5]) := by decide
  simp [run, step, hsub, htick]

/-- C9, amended: from any repository state (the fresh one with cursor 0 among them),
along every sequence of subscriptions, polling ticks and extraction tasks in which no
poll returns a negative head number, the cursor after each event is greater than or
equal to the cursor before it; and when in addition no head fetch panics and every head
is below the largest `int`, the whole sequence runs to its end. It holds whatever the
lower-case table is. -/
theorem cursor_never_decreases (table : Char → Char) (fuel interval : Nat)
    (r : inMemoryParserRepository)
    (evs : List Event) (hnonneg : ∀ ev ∈ evs, ev.headNonNegative = true) :
    (∀ trace : List (inMemoryParserRepository × List Effect),
      run table fuel interval r evs = Exec.ret trace →
        List.Chain
          (fun a b : inMemoryParserRepository => a.currentBlock.val ≤ b.currentBlock.val)
          r (trace.map Prod.fst)) ∧
    ((∀ ev ∈ evs, ev.completes = true) → 18446744073709551616 ≤ fuel →
      ∃ trace, run table fuel interval r evs = Exec.ret trace) :=
  ⟨fun trace hrun => run_cursor_chain fuel interval evs r trace hnonneg hrun,
    fun hall hfuel => run_completes table fuel interval hfuel evs r hall⟩

/-- C9 on a run from the fresh repository: a subscription, then polls with heads 100,
a transport error, 96 and 102. -/
theorem cursor_never_decreases_example :
    (∀ trace : List (inMemoryParserRepository × List Effect),
      run latin1Capitals 18446744073709551616 5 NewInMemoryParserRepository
        [Event.subscribe "0xAbC", Event.poll (RpcReply.decoded "0x64"),
         Event.poll RpcReply.transportError, Event.poll (RpcReply.decoded "0x60"),
         Event.poll (RpcReply.decoded "0x66")] = Exec.ret trace →
        List.Chain
          (fun a b : inMemoryParserRepository => a.currentBlock.val ≤ b.currentBlock.val)
          NewInMemoryParserRepository (trace.map Prod.fst)) ∧
    ((∀ ev ∈ [Event.subscribe "0xAbC", Event.poll (RpcReply.decoded "0x64"),
         Event.poll RpcReply.transportError, Event.poll (RpcReply.decoded "0x60"),
         Event.poll (RpcReply.decoded "0x66")], ev.completes = true) →
      18446744073709551616 ≤ 18446744073709551616 →
      ∃ trace, run latin1Capitals 18446744073709551616 5 NewInMemoryParserRepository
        [Event.subscribe "0xAbC", Event.poll (RpcReply.decoded "0x64"),
         Event.poll RpcReply.transportError, Event.poll (RpcReply.decoded "0x60"),
         Event.poll (RpcReply.decoded "0x66")] = Exec.ret trace) :=
  cursor_never_decreases latin1Capitals 18446744073709551616 5 NewInMemoryParserRepository
    [Event.subscribe "0xAbC", Event.poll (RpcReply.decoded "0x64"),
     Event.poll RpcReply.transportError, Event.poll (RpcReply.decoded "0x60"),
     Event.poll (RpcReply.decoded "0x66")] (by decide)

/-- C5, as stated, fails for a tick whose head is 0: with the cursor at 0 the tick
scans blocks -4..0 and writes the cursor 0, which the next tick reads as unset. The
fetch of block -1 fails, and the next tick, with head 3, dispatches block -1 again. -/
theorem failed_block_is_dispatched_again :
    (ethereumParserService.fetchBlock (genesisSource (GoInt.ofInt (-1)))) =
      Except.error "block not found" ∧
    ∃ (r1 r2 : inMemoryParserRepository) (e1 e2 : List Effect),
      ethereumParserService.tick 10 5 oneSubscriber (RpcReply.decoded "0x0") =
        Exec.ret (r1, e1) ∧
      (spawned e1).map Subtype.val = [-4, -3, -2, -1, 0] ∧
      r1.currentBlock.val = 0 ∧
      ethereumParserService.tick 10 5 (runTasks latin1Capitals r1 genesisSource (spawned e1))
        (RpcReply.decoded "0x3") = Exec.ret (r2, e2) ∧
      (spawned e2).map Subtype.val = [-1, 0, 1, 2, 3] := by
  refine ⟨by decide, { oneSubscriber with currentBlock := GoInt.ofInt 0 },
    { runTasks latin1Capitals { oneSubscriber with currentBlock := GoInt.ofInt 0 }
        genesisSource
        [GoInt.ofInt (-4), GoInt.ofInt (-3), GoInt.ofInt (-2), GoInt.ofInt (-1), GoInt.ofInt 0]
      with currentBlock := GoInt.ofInt 3 },
    [Effect.print "processing blockNumber", Effect.spawn (GoInt.ofInt (-4)),
       Effect.spawn (GoInt.ofInt (-3)), Effect.spawn (GoInt.ofInt (-2)),
       Effect.spawn (GoInt.ofInt (-1)), Effect.spawn (GoInt.ofInt 0), Effect.sleep 5],
    [Effect.print "processing blockNumber", Effect.spawn (GoInt.ofInt (-1)),
       Effect.spawn (GoInt.ofInt 0), Effect.spawn (GoInt.ofInt 1),
       Effect.spawn (GoInt.ofInt 2), Effect.spawn (GoInt.ofInt 3), Effect.sleep 5],
    by decide, by decide, by decide, by decide, by decide⟩

/-- C5, amended: for a tick with at least one subscription whose head `h` is positive
and below the largest `int`, with scan range `start+1..h`, and for any failures of block
fetches: the tick returns with the cursor at `h`; when its tasks have run, in any
order, the sequence of every address has received the matches of each block of the
range whose fetch succeeded and nothing from a block whose fetch failed; and along every
later sequence of subscriptions, tasks and polls whose head fetches do not panic and
stay below the largest `int`, every block number dispatched is above `h`. -/
theorem tick_with_failed_fetches (table : Char → Char)
    (fuel interval : Nat) (r : inMemoryParserRepository)
    (head : RpcReply String) (h : GoInt) (source : GoInt → RpcReply (Option Block))
    (later : List Event) (hcount : r.GetAddressCount ≠ 0)
    (hfetch : ethereumParserService.fetchBlockNumber head = Exec.ret (Except.ok h))
    (hgt : (ethereumParserService.startBlockOf r h).val < h.val)
    (hpos : 0 < h.val) (hmax : h.val < maxInt)
    (hfuel : 18446744073709551616 ≤ fuel)
    (hlater : ∀ ev ∈ later, ev.completes = true) :
    ∃ effects : List Effect,
      ethereumParserService.tick fuel interval r head =
        Exec.ret ({ r with currentBlock := h }, effects) ∧
      (spawned effects).map Subtype.val =
        scanRange (ethereumParserService.startBlockOf r h).val h.val ∧
      (∀ order : List GoInt, order.Perm (spawned effects) → ∀ A : String,
        (runTasks table { r with currentBlock := h } source order).GetTransactions A =
          r.GetTransactions A ++ order.flatMap fun b => gained table r A (source b)) ∧
      (∀ order : List GoInt, order.Perm (spawned effects) →
        ∀ (A : String) (txn : Transaction),
          txn ∈ (runTasks table { r with currentBlock := h } source order).GetTransactions A ↔
            txn ∈ r.GetTransactions A ∨
            ∃ b : GoInt, (ethereumParserService.startBlockOf r h).val < b.val ∧
              b.val ≤ h.val ∧
              ∃ block, ethereumParserService.fetchBlock (source b) = Except.ok block ∧
                txn ∈ matchesOf table r A block) ∧
      (∀ (A : String) (b : GoInt) (err : String),
        ethereumParserService.fetchBlock (source b) = Except.error err →
          gained table r A (source b) = []) ∧
      ∃ trace : List (inMemoryParserRepository × List Effect),
        run table fuel interval { r with currentBlock := h } later = Exec.ret trace ∧
        ∀ s ∈ trace, ∀ b ∈ spawned s.2, h.val < b.val := by
  have hlo := (ethereumParserService.startBlockOf r h).property.1
  have hhi := h.property.2
  obtain ⟨blocks, hrun, hvals⟩ :=
    tick_advances fuel interval r head h hcount hfetch hgt hmax (by omega)
  have hstore : ∀ (order : List GoInt) (A : String),
      (runTasks table { r with currentBlock := h } source order).GetTransactions A =
        r.GetTransactions A ++ order.flatMap fun b => gained table r A (source b) := by
    intro order A
    rw [GetTransactions_runTasks]
    rfl
  refine ⟨_, hrun, ?_, ?_, ?_, ?_, ?_⟩
  · rw [spawned_tick_effects, hvals]
  · intro order _ A
    exact hstore order A
  · intro order hperm A txn
    rw [spawned_tick_effects] at hperm
    rw [hstore, List.mem_append, List.mem_flatMap]
    constructor
    · rintro (hold | ⟨b, hb, hg⟩)
      · exact Or.inl hold
      · right
        have hbv : b.val ∈ scanRange (ethereumParserService.startBlockOf r h).val h.val := by
          rw [← hvals]
          exact List.mem_map_of_mem _ (hperm.mem_iff.mp hb)
        rw [mem_scanRange] at hbv
        cases hf : ethereumParserService.fetchBlock (source b) with
        | error e => simp [gained, hf] at hg
        | ok block =>
          refine ⟨b, hbv.1, hbv.2, block, hf, ?_⟩
          simpa [gained, hf] using hg
    · rintro (hold | ⟨b, h1, h2, block, hok, hm⟩)
      · exact Or.inl hold
      · right
        refine ⟨b, ?_, by simpa [gained, hok] using hm⟩
        have hbv : b.val ∈ blocks.map Subtype.val := by
          rw [hvals, mem_scanRange]
          exact ⟨h1, h2⟩
        obtain ⟨c, hc, hv⟩ := List.mem_map.mp hbv
        have hcb : c = b := Subtype.ext hv
        rw [hcb] at hc
        exact hperm.mem_iff.mpr hc
  · intro A b err herr
    simp [gained, herr]
  · obtain ⟨trace, htrace⟩ :=
      run_completes table fuel interval hfuel later { r with currentBlock := h } hlater
    exact ⟨trace, htrace,
      run_above fuel interval h.val hpos later { r with currentBlock := h } trace
        (le_refl _) htrace⟩

/-- C5 at head 100 with the cursor at 0 and a node that fails for block 97 only,
followed by a poll with head 102: the cursor becomes 100, the sequence of `0xabc` holds
the transactions of blocks 96, 98, 99 and 100 and none of block 97, and the later poll
dispatches only blocks above 100. -/
theorem tick_with_failed_fetches_at_100 :
    ∃ effects : List Effect,
      ethereumParserService.tick 18446744073709551616 5 oneSubscriber
          (RpcReply.decoded "0x64") =
        Exec.ret ({ oneSubscriber with currentBlock := GoInt.ofInt 100 }, effects) ∧
      (spawned effects).map Subtype.val = [96, 97, 98, 99, 100] ∧
      ((runTasks latin1Capitals { oneSubscriber with currentBlock := GoInt.ofInt 100 }
          sampleSource (spawned effects)).GetTransactions "0xabc").map
            (fun txn => txn.BlockNumber) =
        ["0x60", "0x62", "0x63", "0x64"] ∧
      ∃ trace : List (inMemoryParserRepository × List Effect),
        run latin1Capitals 18446744073709551616 5
          { oneSubscriber with currentBlock := GoInt.ofInt 100 }
          [Event.poll (RpcReply.decoded "0x66")] = Exec.ret trace ∧
        ∀ s ∈ trace, ∀ b ∈ spawned s.2, (100 : Int) < b.val := by
  obtain ⟨effects, hrun, hvals, hstore, _, _, hlater⟩ :=
    tick_with_failed_fetches latin1Capitals 18446744073709551616 5 oneSubscriber
      (RpcReply.decoded "0x64") (GoInt.ofInt 100) sampleSource
      [Event.poll (RpcReply.decoded "0x66")]
      (by decide) (by decide) (by decide) (by decide) (by decide) (by decide) (by decide)
  have hblocks : spawned effects =
      [GoInt.ofInt 96, GoInt.ofInt 97, GoInt.ofInt 98, GoInt.ofInt 99, GoInt.ofInt 100] := by
    apply List.map_injective_iff.mpr Subtype.val_injective
    rw [hvals]
    decide
  refine ⟨effects, hrun, ?_, ?_, hlater⟩
  · rw [hvals]
    decide
  · rw [hstore (spawned effects) (List.Perm.refl _) "0xabc", hblocks]
    decide

end TxnParser
